import Mathlib

/-!
Verification of the SumDB auditor and serverless tile codec.

Shallow embedding of:
* the tile codec and node addressing of serverless/api/state.go,
* TileSize of serverless/internal/storage/tile.go,
* the audit pipeline of the binary_transparency audit package
  (CloneLeafTiles, HashTiles, CheckRootHash, ProcessMetadata,
  getLevelsForLeafCount).

Byte strings are lists of naturals (one entry per byte); hashes are byte
strings.  The SHA-256 leaf/node hash functions and the trillian
compact.Range collaborator are external to this repository: hashing is kept
abstract (parameters `lh` / `nh`), and the compact range is modelled from
the spec (section 4.D), as noted on each of its definitions.
-/

/-- Byte strings and hashes, one natural per byte. -/
abbrev Hash := List Nat

/-- Decidable equality for Except values, used to evaluate the embedded
fallible operations on concrete inputs. -/
instance instDecEqExcept {ε α : Type _} [DecidableEq ε] [DecidableEq α] :
    DecidableEq (Except ε α) := fun a b =>
  match a, b with
  | .error e1, .error e2 =>
    if h : e1 = e2 then .isTrue (congrArg _ h)
    else .isFalse (fun hh => h (Except.error.inj hh))
  | .error _, .ok _ => .isFalse Except.noConfusion
  | .ok _, .error _ => .isFalse Except.noConfusion
  | .ok a1, .ok a2 =>
    if h : a1 = a2 then .isTrue (congrArg _ h)
    else .isFalse (fun hh => h (Except.ok.inj hh))

/-! ## Tile codec (serverless/api/state.go) -/

/-- Tile of serverless/api/state.go.  `Nodes` stores log tree nodes in
in-order traversal layout; a `none` entry is a Go nil slice (ephemeral /
unset node). -/
structure Tile where
  NumLeaves : Nat
  Nodes : List (Option (List Nat))
deriving DecidableEq

/-- Tile.MarshalBinary: one byte hash size (32), one byte number of leaves
(Go byte conversion truncates modulo 256), then the node data; a nil node
contributes no bytes, exactly like b.Write(nil). -/
def Tile.MarshalBinary (t : Tile) : List Nat :=
  32 :: (t.NumLeaves % 256) :: (t.Nodes.map (fun n => n.getD [])).flatten

/-- Reading loop of Tile.UnmarshalBinary: repeatedly read 32-byte chunks
from the buffer; an empty buffer ends the loop, a read shorter than 32
bytes is a short-read error.  The fuel argument is the initial buffer
length; every step consumes at least one byte, so the fuel never runs out
on the inputs `readNodes` passes in (the zero-fuel branch is unreachable
there and conservatively reports the same short-read error). -/
def readNodesGo : Nat → List Nat → Except String (List (List Nat))
  | _, [] => .ok []
  | 0, _ :: _ => .error "short read"
  | fuel + 1, l =>
    let chunk := l.take 32
    if chunk.length = 32 then
      match readNodesGo fuel (l.drop 32) with
      | .ok ns => .ok (chunk :: ns)
      | .error e => .error e
    else .error "short read"

/-- Payload reading of Tile.UnmarshalBinary. -/
def readNodes (l : List Nat) : Except String (List (List Nat)) :=
  readNodesGo l.length l

/-- Tile.UnmarshalBinary: read the hash-size byte (must be 32), the
numLeaves byte, then all 32-byte node hashes until the buffer is empty.
No check relates the payload length or node count to numLeaves, and
numLeaves = 0 is not rejected, mirroring the source. -/
def Tile.UnmarshalBinary (raw : List Nat) : Except String Tile :=
  match raw with
  | [] => .error "unable to read hashsize"
  | hs :: rest =>
    if hs ≠ 32 then .error "invalid hash size"
    else
      match rest with
      | [] => .error "unable to read numLeaves"
      | numLeaves :: payload =>
        match readNodes payload with
        | .ok ns => .ok ⟨numLeaves, ns.map some⟩
        | .error e => .error e

/-- TileNodeKey of serverless/api/state.go:
(1 shl (level+1)) * index + (1 shl level) - 1. -/
def TileNodeKey (level index : Nat) : Nat :=
  2 ^ (level + 1) * index + 2 ^ level - 1

/-! ## TileSize (serverless/internal/storage/tile.go) -/

/-- Loop of storage.TileSize: scan level-0 slots at TileNodeKey(0, i) for
i = 0..255 and return the first i whose slot is nil, or 256 when the loop
runs out (the fuel argument is 256 − i, so zero fuel is the loop exit at
i = 256).  A Go index out of range (Nodes shorter than the accessed key)
is a panic, modelled as `none`. -/
def tileSizeGo (nodes : List (Option (List Nat))) : Nat → Nat → Option Nat
  | _, 0 => some 256
  | i, fuel + 1 =>
    match nodes[TileNodeKey 0 i]? with
    | none => none
    | some none => some i
    | some (some _) => tileSizeGo nodes (i + 1) fuel

/-- storage.TileSize on the Nodes array of a tile. -/
def TileSize (nodes : List (Option (List Nat))) : Option Nat :=
  tileSizeGo nodes 0 256

/-! ## getLevelsForLeafCount (audit package) -/

/-- Loop of getLevelsForLeafCount: while coveredIdx > 0, shift right by the
tile height and increment topLevel.  The fuel argument starts at the
initial coveredIdx, which bounds the iteration count for every height ≥ 1
(each shift at least halves coveredIdx), so the zero-fuel branch is never
taken there; only for height = 0, where the Go loop would not terminate,
does the model stop on exhausted fuel. -/
def glflcGo (height : Nat) : Nat → Nat → Int → Int
  | _, 0, topLevel => topLevel
  | 0, _ + 1, topLevel => topLevel
  | fuel + 1, c + 1, topLevel => glflcGo height fuel ((c + 1) >>> height) (topLevel + 1)

/-- getLevelsForLeafCount: topLevel starts at -1, coveredIdx at
leaves >> height. -/
def getLevelsForLeafCount (height : Nat) (leaves : Nat) : Int :=
  glflcGo height (leaves >>> height) (leaves >>> height) (-1)

/-! ## Compact range (trillian merkle/compact, external collaborator)

Modelled from the spec: section 4.D describes the compact range as a list
of perfect-subtree roots, one per set bit of the range width, with an
equal-height right-neighbour merge rule while carrying, and a
right-to-left final combine.  The stack stores (height, root) pairs with
the rightmost (lowest) root first. -/

/-- Modelled from the spec: push a subtree root of the given height onto
the stack, merging equal-height right-neighbours while carrying
(spec 4.D, Append / AppendRange merge rule). -/
def pushHash (nh : Hash → Hash → Hash) : List (Nat × Hash) → Nat → Hash → List (Nat × Hash)
  | [], k, h => [(k, h)]
  | (k1, h1) :: rest, k, h =>
    if k1 = k then pushHash nh rest (k + 1) (nh h1 h)
    else (k, h) :: (k1, h1) :: rest

/-- Modelled from the spec: compact range of leaves [rBegin, rEnd) (spec
4.D); the external trillian compact.Range collaborator. -/
structure CRange where
  rBegin : Nat
  rEnd : Nat
  stack : List (Nat × Hash)

/-- Modelled from the spec: NewEmptyRange(begin), a zero-width range. -/
def emptyRange (b : Nat) : CRange := ⟨b, b, []⟩

/-- Modelled from the spec: Append of a single leaf hash (spec 4.D). -/
def crAppend (nh : Hash → Hash → Hash) (r : CRange) (h : Hash) : CRange :=
  ⟨r.rBegin, r.rEnd + 1, pushHash nh r.stack 0 h⟩

/-- Modelled from the spec: Hashes(), the subtree roots leftmost first. -/
def crHashes (r : CRange) : List Hash :=
  r.stack.reverse.map Prod.snd

/-- Set-bit positions of n in ascending order; fuel-driven (fuel n is
always enough since n halves every step). -/
def bitIdxAscGo : Nat → Nat → List Nat
  | 0, _ => []
  | _ + 1, 0 => []
  | fuel + 1, n =>
    (if n % 2 = 1 then [0] else []) ++ (bitIdxAscGo fuel (n / 2)).map (· + 1)

/-- Set-bit positions of n in ascending order. -/
def bitIdxAsc (n : Nat) : List Nat := bitIdxAscGo n n

/-- Error kinds of the root check (spec section 7). -/
inductive CRHErr where
  | rangeSize
  | calcErr
  | rootFail
  | mismatch
deriving DecidableEq

/-- Modelled from the spec: NewRange(begin, end, hashes) requires one root
per set bit of the width (spec 4.D); roots are given leftmost (largest)
first and stored rightmost first. -/
def newRangeM (b e : Nat) (hashes : List Hash) : Except CRHErr CRange :=
  let heights := bitIdxAsc (e - b)
  if hashes.length = heights.length then
    .ok ⟨b, e, heights.zip hashes.reverse⟩
  else .error .rangeSize

/-- Modelled from the spec: AppendRange of a right-adjacent range with the
equal-height merge rule on the seam (spec 4.D).  CheckRootHash discards
the AppendRange error, and a non-adjacent argument leaves the receiver
unchanged, hence the no-op else branch. -/
def appendRangeDiscard (nh : Hash → Hash → Hash) (r other : CRange) : CRange :=
  if other.rBegin = r.rEnd then
    ⟨r.rBegin, other.rEnd,
      other.stack.reverse.foldl (fun st kh => pushHash nh st kh.1 kh.2) r.stack⟩
  else r

/-- Modelled from the spec: GetRootHash combines the roots pairwise from
right to left (spec 4.D); it is only defined for ranges anchored at 0 and
is undefined (none) on an empty range. -/
def getRootHash (nh : Hash → Hash → Hash) (r : CRange) : Option Hash :=
  if r.rBegin ≠ 0 then none
  else
    match r.stack with
    | [] => none
    | (_, h) :: rest => some (rest.foldl (fun acc kh => nh kh.2 acc) h)

/-! ## CheckRootHash (audit package) -/

/-- Checkpoint: tree size and root hash (tlog.Tree). -/
structure Checkpoint where
  N : Nat
  hash : Hash

/-- Inner loop of CheckRootHash at one level: for each offset in
[firstTileOffset, levelTileCount), read the stored tile, append its hashes
into a standalone range, reinterpret it via NewRange as a commitment to
tileLeafCount leaves and append it to the running range (AppendRange error
discarded, as in the source).  The fuel is levelTileCount −
firstTileOffset. -/
def processLevel (height : Nat) (nh : Hash → Hash → Hash)
    (tiles : Nat → Nat → List Hash) (level : Nat) :
    Nat → Nat → CRange → Except CRHErr CRange
  | _, 0, r => .ok r
  | offset, fuel + 1, r =>
    let tlc := 2 ^ ((level + 1) * height)
    let tHashes := tiles level offset
    let tcr := tHashes.foldl (fun c h => crAppend nh c h) (emptyRange 0)
    match newRangeM (offset * tlc) ((offset + 1) * tlc) (crHashes tcr) with
    | .error e => .error e
    | .ok treeRange =>
      processLevel height nh tiles level (offset + 1) fuel
        (appendRangeDiscard nh r treeRange)

/-- Level loop of CheckRootHash, visiting the given strata in order (the
caller passes [K, K-1, ..., 0]). -/
def processTiles (height : Nat) (nh : Hash → Hash → Hash)
    (tiles : Nat → Nat → List Hash) (N : Nat) :
    List Nat → CRange → Except CRHErr CRange
  | [], r => .ok r
  | level :: rest, r =>
    let tlc := 2 ^ ((level + 1) * height)
    let cnt := N / tlc
    let first := r.rEnd / tlc
    match processLevel height nh tiles level first (cnt - first) r with
    | .error e => .error e
    | .ok r2 => processTiles height nh tiles N rest r2

/-- Range computation of CheckRootHash: visit levels K down to 0, then
fetch treeSize − range.End() stragglers (uint64 subtraction, taken modulo
2^64) at tile offset treeSize / 2^height and append their record hashes.
`tiles` is LocalStore.Tile and `prt` is SumDB PartialLeavesAtOffset. -/
def crhRange (height : Nat) (nh : Hash → Hash → Hash)
    (lh : List Nat → Hash) (tiles : Nat → Nat → List Hash)
    (prt : Nat → Nat → List (List Nat)) (cp : Checkpoint) :
    Except CRHErr CRange :=
  let K := getLevelsForLeafCount height cp.N
  let levels := if K < 0 then [] else (List.range (K.toNat + 1)).reverse
  match processTiles height nh tiles cp.N levels (emptyRange 0) with
  | .error e => .error e
  | .ok r =>
    let sCount := (cp.N + 2 ^ 64 - r.rEnd) % 2 ^ 64
    let sOffset := cp.N / 2 ^ height
    let stragglers := prt sOffset sCount
    .ok (stragglers.foldl (fun rr leaf => crAppend nh rr (lh leaf)) r)

/-- CheckRootHash: build the range, check its end equals treeSize, compute
the root and compare with the checkpoint hash, as in the source. -/
def checkRootHash (height : Nat) (nh : Hash → Hash → Hash)
    (lh : List Nat → Hash) (tiles : Nat → Nat → List Hash)
    (prt : Nat → Nat → List (List Nat)) (cp : Checkpoint) :
    Except CRHErr Unit :=
  match crhRange height nh lh tiles prt cp with
  | .error e => .error e
  | .ok r2 =>
    if r2.rEnd ≠ cp.N then .error .calcErr
    else
      match getRootHash nh r2 with
      | none => .error .rootFail
      | some root => if root = cp.hash then .ok () else .error .mismatch

/-! ## HashTiles (audit package)

The errgroup/channel pipeline is sequentialised: each level consumes the
list of compact-range roots produced by the level below, in order, which
is exactly the channel order of the source. -/

/-- Error kinds of HashTiles. -/
inductive HTErr where
  | notSingleRoot
  | hashDiff (level offset slot : Nat)
  | starved
deriving DecidableEq

/-- hashLeafLevel: for each leaf-tile offset read the stored tile; only on
a not-present store answer recompute the record hashes from the leaves and
SetTile them (collected in the writes accumulator).  Either way append the
2^height hashes into a compact range anchored at offset·2^height and emit
it.  Note a present stored tile is used as is: its hashes are never
compared with the leaf data. -/
def hashLeafLevelM (height : Nat) (nh : Hash → Hash → Hash)
    (lh : List Nat → Hash) (tilesDB : Nat → Nat → Option (List Hash))
    (leavesDB : Nat → Nat → List (List Nat)) :
    Nat → Nat → List CRange → List (Nat × Nat × List Hash) →
    Except HTErr (List CRange × List (Nat × Nat × List Hash))
  | _, 0, roots, ws => .ok (roots.reverse, ws.reverse)
  | offset, fuel + 1, roots, ws =>
    let res :=
      match tilesDB 0 offset with
      | some hs => (hs, ws)
      | none =>
        let hs := (leavesDB (2 ^ height * offset) (2 ^ height)).map lh
        (hs, (0, offset, hs) :: ws)
    let cr := res.1.foldl (fun c h => crAppend nh c h)
      (emptyRange (offset * 2 ^ height))
    if (crHashes cr).length = 1 then
      hashLeafLevelM height nh lh tilesDB leavesDB (offset + 1) fuel
        (cr :: roots) res.2
    else .error .notSingleRoot

/-- hashUpperLevel at one stratum: per offset, read any stored tile,
consume 2^height roots from the level below, compare against the stored
tile (failing with the first differing slot), SetTile when absent, and
emit the offset's compact-range root. -/
def hashUpperLevelM (height : Nat) (nh : Hash → Hash → Hash)
    (tilesDB : Nat → Nat → Option (List Hash)) (level : Nat) :
    Nat → Nat → List CRange → List CRange → List (Nat × Nat × List Hash) →
    Except HTErr (List CRange × List (Nat × Nat × List Hash))
  | _, 0, _, out, ws => .ok (out.reverse, ws.reverse)
  | offset, fuel + 1, inRoots, out, ws =>
    let tw := 2 ^ height
    if inRoots.length < tw then .error .starved
    else
      let consumed := inRoots.take tw
      let inHashes := consumed.map (fun cr => (crHashes cr).headD [])
      match tilesDB level offset with
      | some stored =>
        match (List.range tw).find? (fun i => stored.getD i [] ≠ inHashes.getD i []) with
        | some i => .error (.hashDiff level offset i)
        | none =>
          let cr := inHashes.foldl (fun c h => crAppend nh c h)
            (emptyRange (offset * tw))
          if (crHashes cr).length = 1 then
            hashUpperLevelM height nh tilesDB level (offset + 1) fuel
              (inRoots.drop tw) (cr :: out) ws
          else .error .notSingleRoot
      | none =>
        let cr := inHashes.foldl (fun c h => crAppend nh c h)
          (emptyRange (offset * tw))
        if (crHashes cr).length = 1 then
          hashUpperLevelM height nh tilesDB level (offset + 1) fuel
            (inRoots.drop tw) (cr :: out) ((level, offset, inHashes) :: ws)
        else .error .notSingleRoot

/-- Loop over the upper strata 1..K of HashTiles; tileCount is divided by
the tile width before each stratum, as in the source. -/
def upperLoop (height : Nat) (nh : Hash → Hash → Hash)
    (tilesDB : Nat → Nat → Option (List Hash)) :
    List Nat → Nat → List CRange → List (Nat × Nat × List Hash) →
    Except HTErr (List CRange × List (Nat × Nat × List Hash))
  | [], _, roots, ws => .ok (roots, ws)
  | lvl :: rest, tc, roots, ws =>
    let tc2 := tc / 2 ^ height
    match hashUpperLevelM height nh tilesDB lvl 0 tc2 roots [] ws with
    | .error e => .error e
    | .ok (outR, ws2) => upperLoop height nh tilesDB rest tc2 outR ws2

/-- HashTiles: hash the leaf level over treeSize / 2^height full tiles,
then each upper stratum 1..getLevelsForLeafCount(treeSize); the returned
list is the SetTile writes performed. -/
def hashTilesM (height : Nat) (nh : Hash → Hash → Hash)
    (lh : List Nat → Hash) (tilesDB : Nat → Nat → Option (List Hash))
    (leavesDB : Nat → Nat → List (List Nat)) (N : Nat) :
    Except HTErr (List (Nat × Nat × List Hash)) :=
  let tw := 2 ^ height
  let tileCount := N / tw
  match hashLeafLevelM height nh lh tilesDB leavesDB 0 tileCount [] [] with
  | .error e => .error e
  | .ok (roots, ws) =>
    let K := getLevelsForLeafCount height N
    let levels := List.range' 1 K.toNat
    match upperLoop height nh tilesDB levels tileCount roots ws with
    | .error e => .error e
    | .ok (_, ws2) => .ok ws2

/-! ## CloneLeafTiles (audit package)

The producer goroutine fetches chunks in ascending offset order and the
consumer writes them in the same order, so the pipeline is sequentialised
as one in-order loop.  `full` is SumDB FullLeavesAtOffset after backoff
(an error is a fetch whose backoff was exhausted), `writeRes` is
Database.WriteLeaves.  The result collects the (start, leaves) blocks
written. -/

/-- Fetch-and-write loop of CloneLeafTiles over remainingChunks chunks. -/
def cloneLoop (full : Int → Except String (List (List Nat)))
    (writeRes : Int → List (List Nat) → Except String Unit)
    (startOffset tileWidth : Int) :
    Nat → Nat → List (Int × List (List Nat)) →
    Except String (List (Int × List (List Nat)))
  | _, 0, acc => .ok acc.reverse
  | i, fuel + 1, acc =>
    let offset := startOffset + Int.ofNat i
    match full offset with
    | .error e => .error e
    | .ok leaves =>
      let start := offset * tileWidth
      match writeRes start leaves with
      | .error e => .error ("WriteLeaves: " ++ e)
      | .ok _ => cloneLoop full writeRes startOffset tileWidth (i + 1) fuel ((start, leaves) :: acc)

/-- CloneLeafTiles: a Head() error is logged and replaced by -1 (assume
empty store); fail when checkpoint.N < head; otherwise fetch and write the
remaining whole tiles.  Go int64 division truncates toward zero
(Int.div). -/
def cloneLeafTiles (height : Nat) (headRes : Except Unit Int) (N : Int)
    (full : Int → Except String (List (List Nat)))
    (writeRes : Int → List (List Nat) → Except String Unit) :
    Except String (List (Int × List (List Nat))) :=
  let head : Int := match headRes with | .ok h => h | .error _ => -1
  if N < head then .error "illegal state; more leaves locally than in SumDB"
  else
    let localLeaves := head + 1
    let tileWidth : Int := Int.ofNat (2 ^ height)
    let remainingLeaves := N - localLeaves
    let remainingChunks := Int.tdiv remainingLeaves tileWidth
    let startOffset := Int.tdiv localLeaves tileWidth
    if 0 < remainingChunks then
      cloneLoop full writeRes startOffset tileWidth 0 remainingChunks.toNat []
    else .ok []

/-! ## ProcessMetadata (audit package) -/

/-- Go strings.Split for a one-character separator. -/
def splitOnChar (sep : Char) : List Char → List (List Char)
  | [] => [[]]
  | c :: rest =>
    if c = sep then [] :: splitOnChar sep rest
    else
      match splitOnChar sep rest with
      | [] => [[c]]
      | t :: ts => (c :: t) :: ts

/-- Parsed leaf metadata row. -/
structure Metadata where
  module : List Char
  version : List Char
  repoHash : List Char
  modHash : List Char
deriving DecidableEq

/-- Outcome of parsing one leaf body; indexOOB is a Go index/slice out of
range panic. -/
inductive LeafResult where
  | ok (m : Metadata)
  | moduleMismatch
  | versionMismatch
  | indexOOB
deriving DecidableEq

/-- Newline-split lines of a leaf body. -/
def linesOf (body : List Char) : List (List Char) :=
  splitOnChar '\n' body

/-- Space-split tokens of the first line. -/
def tokens1Of (body : List Char) : List (List Char) :=
  splitOnChar ' ' ((linesOf body).headD [])

/-- Space-split tokens of the second line. -/
def tokens2Of (body : List Char) : List (List Char) :=
  splitOnChar ' ' ((linesOf body).getD 1 [])

/-- Per-leaf body processing of ProcessMetadata, in source order: split
lines, take tokens[0..2] of line 1 (panic when fewer than three tokens),
access lines[1] (panic when only one line), compare tokens[0] with the
module, slice tokens[1][:len(version)] (panic when tokens[1] is missing or
shorter than version), compare with the version, then take tokens[2]
(panic when missing). -/
def processLeafBody (body : List Char) : LeafResult :=
  let lines := linesOf body
  let tokens := splitOnChar ' ' (lines.headD [])
  if tokens.length < 3 then .indexOOB
  else
    let module := tokens.getD 0 []
    let version := tokens.getD 1 []
    let repoHash := tokens.getD 2 []
    if lines.length < 2 then .indexOOB
    else
      let tokens2 := splitOnChar ' ' (lines.getD 1 [])
      if tokens2.getD 0 [] ≠ module then .moduleMismatch
      else if tokens2.length < 2 then .indexOOB
      else if (tokens2.getD 1 []).length < version.length then .indexOOB
      else if (tokens2.getD 1 []).take version.length ≠ version then .versionMismatch
      else if tokens2.length < 3 then .indexOOB
      else .ok ⟨module, version, repoHash, tokens2.getD 2 []⟩

/-- Outcome of processing one tile of leaves; err and indexOOB carry the
index of the offending leaf. -/
inductive TileResult where
  | ok (ms : List Metadata)
  | err (leafID : Nat)
  | indexOOB (leafID : Nat)
deriving DecidableEq

/-- Leaf loop of ProcessMetadata inside one tile; the first failing leaf
aborts the tile and its id is reported. -/
def processTileGo (leafOffset : Nat) :
    Nat → List (List Char) → List Metadata → TileResult
  | _, [], acc => .ok acc.reverse
  | i, b :: rest, acc =>
    match processLeafBody b with
    | .ok m => processTileGo leafOffset (i + 1) rest (m :: acc)
    | .indexOOB => .indexOOB (leafOffset + i)
    | _ => .err (leafOffset + i)

/-- Processing of one tile of leaf bodies. -/
def processTile (leafOffset : Nat) (bodies : List (List Char)) : TileResult :=
  processTileGo leafOffset 0 bodies []

/-- Terminal failure of ProcessMetadata. -/
inductive PMStop where
  | err (leafID : Nat)
  | indexOOB (leafID : Nat)
deriving DecidableEq

/-- Tile loop of ProcessMetadata: per full tile, read the 2^height leaves
and process them; a fully parsed tile is written via SetLeafMetadata
(collected in the accumulator), a failing tile stops the run with no write
for it. -/
def processMetadataGo (height : Nat) (leavesF : Nat → Nat → List (List Char)) :
    Nat → Nat → List (Nat × List Metadata) →
    List (Nat × List Metadata) × Option PMStop
  | _, 0, ws => (ws.reverse, none)
  | offset, fuel + 1, ws =>
    let tw := 2 ^ height
    let leafOffset := offset * tw
    match processTile leafOffset (leavesF leafOffset tw) with
    | .ok ms => processMetadataGo height leavesF (offset + 1) fuel ((leafOffset, ms) :: ws)
    | .err id => (ws.reverse, some (.err id))
    | .indexOOB id => (ws.reverse, some (.indexOOB id))

/-- ProcessMetadata over the treeSize / 2^height full tiles. -/
def processMetadata (height N : Nat) (leavesF : Nat → Nat → List (List Char)) :
    List (Nat × List Metadata) × Option PMStop :=
  processMetadataGo height leavesF 0 (N / 2 ^ height) []

/-- Modelled from the spec: the version of line 2 taken before the /go.mod
suffix (spec 4.I reads the second version as module version followed by
/go.mod). -/
def specVersionBeforeGoMod (v2 : List Char) : List Char :=
  if v2.drop (v2.length - 7) = "/go.mod".data then v2.take (v2.length - 7)
  else v2

/-! ## Proof-side notions for compact-range stacks -/

/-- Total leaf width covered by a stack of (height, root) entries. -/
def widthSum (st : List (Nat × Hash)) : Nat :=
  (st.map (fun kh => 2 ^ kh.1)).sum

/-- Heights of a stack are at least b and strictly ascending from the
head (the rightmost, lowest root). -/
def AscFrom : Nat → List (Nat × Hash) → Prop
  | _, [] => True
  | b, (k, _) :: rest => b ≤ k ∧ AscFrom (k + 1) rest


/-- Fully populated full tile with 256 leaves, the boundary case of the
round-trip claim. -/
def tile256 : Tile := ⟨256, List.replicate 511 (some (List.replicate 32 0))⟩

/-- Concrete remote-log fetch used by witnesses: every offset yields the
two leaves [1] and [2]. -/
def fullC : Int → Except String (List (List Nat)) := fun _ => .ok [[1], [2]]

/-- Concrete always-succeeding WriteLeaves used by witnesses. -/
def wC : Int → List (List Nat) → Except String Unit := fun _ _ => .ok ()

/-! # Theorems -/

/-! ## Helper lemmas: list splitting into 32-byte chunks -/

/-- Taking the length of the left part of an append returns it. -/
theorem take_append_len {α : Type _} (a b : List α) : (a ++ b).take a.length = a := by
  simp

/-- Dropping the length of the left part of an append returns the right part. -/
theorem drop_append_len {α : Type _} (a b : List α) : (a ++ b).drop a.length = b := by
  simp

/-- readNodesGo succeeds exactly on buffers whose length is a multiple of
32, for any fuel at least a 32th of the length. -/
theorem readNodesGo_ok_iff : ∀ (fuel : Nat) (l : List Nat), l.length ≤ 32 * fuel →
    ((∃ ns, readNodesGo fuel l = .ok ns) ↔ l.length % 32 = 0) := by
  intro fuel
  induction fuel with
  | zero =>
    intro l hl
    have hnil : l = [] := List.eq_nil_of_length_eq_zero (by omega)
    subst hnil
    simp [readNodesGo]
  | succ fuel ih =>
    intro l hl
    match l with
    | [] => simp [readNodesGo]
    | c :: rest =>
      have hlen : (c :: rest).length = rest.length + 1 := by simp
      by_cases h32 : 32 ≤ rest.length + 1
      · have htake : ((c :: rest).take 32).length = 32 := by
          simp [List.length_take]
          omega
        have hdrop : ((c :: rest).drop 32).length = rest.length + 1 - 32 := by
          simp [List.length_drop]
        have hih := ih ((c :: rest).drop 32) (by rw [hdrop]; omega)
        rw [hdrop] at hih
        rcases hr : readNodesGo fuel ((c :: rest).drop 32) with e | ns2
        · have hstep : readNodesGo (fuel + 1) (c :: rest) = .error e := by
            simp only [readNodesGo]
            rw [if_pos htake, hr]
          have hmod : ¬ (rest.length + 1 - 32) % 32 = 0 := by
            intro hc
            obtain ⟨ns, hns⟩ := hih.mpr hc
            rw [hr] at hns
            exact absurd hns (by simp)
          constructor
          · intro ⟨ns, hns⟩
            rw [hstep] at hns
            exact absurd hns (by simp)
          · intro h0
            rw [hlen] at h0
            exact absurd (by omega : (rest.length + 1 - 32) % 32 = 0) hmod
        · have hstep : readNodesGo (fuel + 1) (c :: rest) =
              .ok ((c :: rest).take 32 :: ns2) := by
            simp only [readNodesGo]
            rw [if_pos htake, hr]
          have hmod : (rest.length + 1 - 32) % 32 = 0 := hih.mp ⟨_, hr⟩
          constructor
          · intro _
            rw [hlen]
            omega
          · intro _
            exact ⟨_, hstep⟩
      · have htake : ((c :: rest).take 32).length = rest.length + 1 := by
          simp [List.length_take]
          omega
        have hcond : ¬ ((c :: rest).take 32).length = 32 := by
          rw [htake]
          omega
        have hstep : readNodesGo (fuel + 1) (c :: rest) = .error "short read" := by
          simp only [readNodesGo]
          rw [if_neg hcond]
        constructor
        · intro ⟨ns, hns⟩
          rw [hstep] at hns
          exact absurd hns (by simp)
        · intro h0
          rw [hlen] at h0
          omega

/-- readNodes succeeds exactly on buffers whose length is a multiple of 32. -/
theorem readNodes_ok_iff (l : List Nat) :
    (∃ ns, readNodes l = .ok ns) ↔ l.length % 32 = 0 :=
  readNodesGo_ok_iff l.length l (by omega)

/-- C2 (counterexample): UnmarshalBinary accepts the two-byte input
[32, 0] although its numLeaves byte is 0, and accepts [32, 1] although
its payload length 0 differs from 32·(2·1 − 1); the claimed rejections
do not happen. -/
theorem tileDecode_missing_checks :
    Tile.UnmarshalBinary [32, 0] = .ok ⟨0, []⟩ ∧
      Tile.UnmarshalBinary [32, 1] = .ok ⟨1, []⟩ := by
  exact ⟨by decide, by decide⟩

/-- C2 (amended): UnmarshalBinary succeeds exactly when the input has at
least the two header bytes, its hash-size byte is 32 and the payload is a
whole number of 32-byte hashes; the numLeaves byte and the relation of the
payload length to numLeaves are not checked. -/
theorem tileDecode_accepts_iff (raw : List Nat) :
    (∃ t, Tile.UnmarshalBinary raw = .ok t) ↔
      (2 ≤ raw.length ∧ raw.headD 0 = 32 ∧ (raw.length - 2) % 32 = 0) := by
  match raw with
  | [] => simp [Tile.UnmarshalBinary]
  | [hs] =>
    constructor
    · intro ⟨t, ht⟩
      by_cases h : hs = 32 <;> simp [Tile.UnmarshalBinary, h] at ht
    · intro ⟨h2, _⟩
      simp at h2
  | hs :: nl :: payload =>
    by_cases h : hs = 32
    · subst h
      have hne : ¬ ((32 : Nat) ≠ 32) := by omega
      constructor
      · intro ⟨t, ht⟩
        simp only [Tile.UnmarshalBinary, hne, if_false] at ht
        rcases hr : readNodes payload with e | ns
        · rw [hr] at ht
          exact absurd ht (by simp)
        · have hmod : payload.length % 32 = 0 := (readNodes_ok_iff payload).mp ⟨_, hr⟩
          refine ⟨by simp only [List.length_cons]; omega, by simp, ?_⟩
          simp only [List.length_cons]
          have : payload.length + 1 + 1 - 2 = payload.length := by omega
          rw [this]
          exact hmod
      · intro ⟨h2, hhead, hmod⟩
        simp only [List.length_cons] at hmod
        have hmod2 : payload.length % 32 = 0 := by omega
        obtain ⟨ns, hns⟩ := (readNodes_ok_iff payload).mpr hmod2
        refine ⟨⟨nl, ns.map some⟩, ?_⟩
        simp only [Tile.UnmarshalBinary, hne, if_false, hns]
    · constructor
      · intro ⟨t, ht⟩
        simp [Tile.UnmarshalBinary, h] at ht
      · intro ⟨_, hhead, _⟩
        simp at hhead
        exact absurd hhead h

/-- Chunked reading undoes flattening when every chunk is exactly 32
bytes long. -/
theorem readNodesGo_flatten : ∀ (fuel : Nat) (ns : List (List Nat)),
    ns.length ≤ fuel → (∀ n ∈ ns, n.length = 32) →
    readNodesGo fuel ns.flatten = .ok ns := by
  intro fuel
  induction fuel with
  | zero =>
    intro ns hl _
    have : ns = [] := List.eq_nil_of_length_eq_zero (by omega)
    subst this
    simp [readNodesGo]
  | succ fuel ih =>
    intro ns hl h32
    match ns with
    | [] => simp [readNodesGo]
    | n :: rest =>
      have hn32 : n.length = 32 := h32 n (by simp)
      have hflat : (n :: rest).flatten = n ++ rest.flatten := by simp
      have hnonnil : n ++ rest.flatten ≠ [] := by
        intro hc
        have : n = [] := by
          rcases List.append_eq_nil.mp hc with ⟨h1, _⟩
          exact h1
        rw [this] at hn32
        simp at hn32
      have htake : (n ++ rest.flatten).take 32 = n := by
        rw [← hn32]
        exact take_append_len n rest.flatten
      have hdrop : (n ++ rest.flatten).drop 32 = rest.flatten := by
        rw [← hn32]
        exact drop_append_len n rest.flatten
      have hrec : readNodesGo fuel ((n ++ rest.flatten).drop 32) = .ok rest := by
        rw [hdrop]
        exact ih rest (by simp at hl; omega) (fun m hm => h32 m (by simp [hm]))
      rw [hflat]
      match hshape : n ++ rest.flatten with
      | [] => exact absurd hshape hnonnil
      | c :: tl =>
        rw [← hshape]
        rw [show readNodesGo (fuel + 1) (n ++ rest.flatten)
            = (if ((n ++ rest.flatten).take 32).length = 32 then
                match readNodesGo fuel ((n ++ rest.flatten).drop 32) with
                | .ok ms => .ok ((n ++ rest.flatten).take 32 :: ms)
                | .error e => .error e
              else .error "short read") from by rw [hshape]; simp only [readNodesGo]]
        rw [htake, if_pos hn32, hrec]

/-- C2 (witness): a well-formed 34-byte tile encoding decodes
successfully. -/
theorem tileDecode_accepts_iff_witness :
    ∃ t, Tile.UnmarshalBinary (32 :: 7 :: List.replicate 32 0) = .ok t :=
  (tileDecode_accepts_iff (32 :: 7 :: List.replicate 32 0)).mpr (by decide)

/-- Flattening chunks that are all 32 bytes long multiplies the count by
32. -/
theorem flatten_length_32 : ∀ (ns : List (List Nat)),
    (∀ n ∈ ns, n.length = 32) → ns.flatten.length = 32 * ns.length := by
  intro ns
  induction ns with
  | nil => simp
  | cons n rest ih =>
    intro h
    have := h n (by simp)
    simp only [List.flatten_cons, List.length_append, List.length_cons, this,
      ih (fun m hm => h m (by simp [hm]))]
    ring

/-- Chunked reading undoes flattening of 32-byte chunks. -/
theorem readNodes_flatten (ns : List (List Nat)) (h : ∀ n ∈ ns, n.length = 32) :
    readNodes ns.flatten = .ok ns := by
  apply readNodesGo_flatten
  · rw [flatten_length_32 ns h]
    omega
  · exact h

/-- Decoding the encoding of any tile whose nodes are all non-nil 32-byte
hashes reconstructs the nodes exactly and the leaf count modulo 256 (the
byte truncation of MarshalBinary). -/
theorem unmarshal_marshal (t : Tile)
    (h3 : ∀ n ∈ t.Nodes, n ≠ none ∧ (n.getD []).length = 32) :
    Tile.UnmarshalBinary (Tile.MarshalBinary t) = .ok ⟨t.NumLeaves % 256, t.Nodes⟩ := by
  have hall : ∀ m ∈ t.Nodes.map (fun n => n.getD []), m.length = 32 := by
    intro m hm
    obtain ⟨n, hn, rfl⟩ := List.mem_map.mp hm
    exact (h3 n hn).2
  have hflat := readNodes_flatten _ hall
  have hback : (t.Nodes.map (fun n => n.getD [])).map some = t.Nodes := by
    rw [List.map_map]
    conv_rhs => rw [← List.map_id t.Nodes]
    apply List.map_congr_left
    intro n hn
    rcases n with _ | v
    · exact absurd rfl (h3 none hn).1
    · rfl
  show Tile.UnmarshalBinary
      (32 :: (t.NumLeaves % 256) :: (t.Nodes.map (fun n => n.getD [])).flatten) = _
  simp only [Tile.UnmarshalBinary]
  rw [if_neg (by omega), hflat]
  show Except.ok (Tile.mk (t.NumLeaves % 256) ((t.Nodes.map (fun n => n.getD [])).map some))
      = Except.ok (Tile.mk (t.NumLeaves % 256) t.Nodes)
  rw [hback]

/-- C3 (counterexample): the fully populated tile with NumLeaves = 256 =
2^H does not round-trip: byte(256) = 0, so decoding its encoding yields
NumLeaves = 0, not 256. -/
theorem tileRoundTrip_fails_at_256 :
    Tile.UnmarshalBinary (Tile.MarshalBinary tile256) = .ok ⟨0, tile256.Nodes⟩ ∧
      tile256.NumLeaves = 256 := by
  have h := unmarshal_marshal tile256 (by
    intro n hn
    rw [List.eq_of_mem_replicate hn]
    exact ⟨by simp, by simp⟩)
  rw [show tile256.NumLeaves % 256 = 0 from rfl] at h
  exact ⟨h, rfl⟩

/-- C3 (amended): the round-trip holds for every tile with
1 ≤ NumLeaves ≤ 255 whose nodes are all populated 32-byte hashes; only the
boundary NumLeaves = 2^H = 256 is lost to the byte truncation. -/
theorem tileRoundTrip_below256 (t : Tile) (h1 : 1 ≤ t.NumLeaves)
    (h2 : t.NumLeaves ≤ 255)
    (h3 : ∀ n ∈ t.Nodes, n ≠ none ∧ (n.getD []).length = 32) :
    Tile.UnmarshalBinary (Tile.MarshalBinary t) = .ok t := by
  have h := unmarshal_marshal t h3
  rw [Nat.mod_eq_of_lt (by omega)] at h
  exact h

/-- C3 (witness): a one-node tile with NumLeaves = 1 round-trips. -/
theorem tileRoundTrip_below256_witness :
    Tile.UnmarshalBinary (Tile.MarshalBinary ⟨1, [some (List.replicate 32 0)]⟩)
      = .ok ⟨1, [some (List.replicate 32 0)]⟩ :=
  tileRoundTrip_below256 ⟨1, [some (List.replicate 32 0)]⟩ (by decide) (by decide)
    (by decide)

/-! ## TileSize -/

/-- TileNodeKey at node level 0 is twice the node index. -/
theorem TileNodeKey_zero (i : Nat) : TileNodeKey 0 i = 2 * i := by
  simp only [TileNodeKey, zero_add, pow_one, pow_zero]
  omega

/-- Scan invariant of the TileSize loop: with at least 511 nodes present
the scan from position i returns the first nil level-0 slot at or after i,
or 256 when none exists. -/
theorem tileSizeGo_spec (nodes : List (Option (List Nat))) (hlen : 511 ≤ nodes.length) :
    ∀ (fuel i : Nat), i + fuel = 256 →
    ∃ r, tileSizeGo nodes i fuel = some r ∧ i ≤ r ∧ r ≤ 256 ∧
      (∀ j, i ≤ j → j < r → ∃ hsh, nodes[2 * j]? = some (some hsh)) ∧
      (r < 256 → nodes[2 * r]? = some none) := by
  intro fuel
  induction fuel with
  | zero =>
    intro i hi
    refine ⟨256, rfl, by omega, le_refl _, ?_, by omega⟩
    intro j hj1 hj2
    omega
  | succ fuel ih =>
    intro i hi
    have hkey : TileNodeKey 0 i = 2 * i := TileNodeKey_zero i
    have hbound : 2 * i < nodes.length := by omega
    have hget : nodes[2 * i]? = some nodes[2 * i] := List.getElem?_eq_getElem hbound
    rcases hval : nodes[2 * i] with _ | hsh
    · refine ⟨i, ?_, le_refl _, by omega, ?_, ?_⟩
      · rw [show tileSizeGo nodes i (fuel + 1) =
            (match nodes[TileNodeKey 0 i]? with
              | none => none
              | some none => some i
              | some (some _) => tileSizeGo nodes (i + 1) fuel) from rfl]
        rw [hkey, hget, hval]
      · intro j hj1 hj2
        omega
      · intro _
        rw [hget, hval]
    · obtain ⟨r, hrun, hir, hr256, hpop, hnil⟩ := ih (i + 1) (by omega)
      refine ⟨r, ?_, by omega, hr256, ?_, hnil⟩
      · rw [show tileSizeGo nodes i (fuel + 1) =
            (match nodes[TileNodeKey 0 i]? with
              | none => none
              | some none => some i
              | some (some _) => tileSizeGo nodes (i + 1) fuel) from rfl]
        rw [hkey, hget, hval]
        exact hrun
      · intro j hj1 hj2
        rcases Nat.eq_or_lt_of_le hj1 with rfl | hlt
        · exact ⟨hsh, by rw [hget, hval]⟩
        · exact hpop j hlt hj2

/-- C10: on a full-capacity in-order Nodes layout (length at least
2·256 − 1 = 511), TileSize terminates without out-of-bounds access and
returns the least i < 256 whose level-0 slot TileNodeKey(0,i) = 2i is nil,
or 256 when all 256 level-0 slots are populated. -/
theorem TileSize_spec (nodes : List (Option (List Nat))) (hlen : 511 ≤ nodes.length) :
    ∃ r, TileSize nodes = some r ∧ r ≤ 256 ∧
      (∀ j, j < r → ∃ hsh, nodes[2 * j]? = some (some hsh)) ∧
      (r < 256 → nodes[2 * r]? = some none) := by
  obtain ⟨r, hrun, _, hr256, hpop, hnil⟩ := tileSizeGo_spec nodes hlen 256 0 (by omega)
  exact ⟨r, hrun, hr256, fun j hj => hpop j (by omega) hj, hnil⟩

/-- C10 (witness): a 511-entry Nodes array with every slot populated has
TileSize 256. -/
theorem TileSize_spec_witness :
    ∃ r, TileSize (List.replicate 511 (some ([] : List Nat))) = some r ∧ r ≤ 256 ∧
      (∀ j, j < r → ∃ hsh,
        (List.replicate 511 (some ([] : List Nat)))[2 * j]? = some (some hsh)) ∧
      (r < 256 → (List.replicate 511 (some ([] : List Nat)))[2 * r]? = some none) :=
  TileSize_spec (List.replicate 511 (some ([] : List Nat)))
    (by simp only [List.length_replicate, le_refl])

/-! ## getLevelsForLeafCount -/

/-- A zero coveredIdx ends the loop immediately for any fuel. -/
theorem glflcGo_zero (height fuel : Nat) (tl : Int) :
    glflcGo height fuel 0 tl = tl := by
  cases fuel <;> rfl

/-- Running the loop with coveredIdx in [2^(k·height), 2^((k+1)·height))
performs exactly k + 1 iterations, for any fuel at least coveredIdx and
any positive height. -/
theorem glflcGo_run (height : Nat) (hH : 0 < height) :
    ∀ (k fuel c : Nat) (tl : Int), c ≤ fuel →
      2 ^ (k * height) ≤ c → c < 2 ^ ((k + 1) * height) →
      glflcGo height fuel c tl = tl + 1 + k := by
  intro k
  induction k with
  | zero =>
    intro fuel c tl hfuel h1 h2
    have hp0 : (2 : Nat) ^ (0 * height) = 1 := by norm_num
    have hp1 : (0 + 1) * height = height := by ring
    rw [hp0] at h1
    rw [hp1] at h2
    obtain ⟨f, rfl⟩ : ∃ f, fuel = f + 1 := ⟨fuel - 1, by omega⟩
    obtain ⟨c2, rfl⟩ : ∃ c2, c = c2 + 1 := ⟨c - 1, by omega⟩
    show glflcGo height f ((c2 + 1) >>> height) (tl + 1) = tl + 1 + 0
    have hsh : (c2 + 1) >>> height = 0 := by
      rw [Nat.shiftRight_eq_div_pow]
      exact Nat.div_eq_of_lt h2
    rw [hsh, glflcGo_zero]
    omega
  | succ k ih =>
    intro fuel c tl hfuel h1 h2
    have hpow : 2 ≤ 2 ^ height := by
      calc 2 = 2 ^ 1 := (pow_one 2).symm
      _ ≤ 2 ^ height := Nat.pow_le_pow_right (by omega) hH
    have hc1 : 1 ≤ c := by
      have : 1 ≤ 2 ^ ((k + 1) * height) := Nat.one_le_two_pow
      omega
    obtain ⟨f, rfl⟩ : ∃ f, fuel = f + 1 := ⟨fuel - 1, by omega⟩
    obtain ⟨c2, rfl⟩ : ∃ c2, c = c2 + 1 := ⟨c - 1, by omega⟩
    show glflcGo height f ((c2 + 1) >>> height) (tl + 1) = tl + 1 + (k + 1 : Nat)
    have hshift : (c2 + 1) >>> height = (c2 + 1) / 2 ^ height :=
      Nat.shiftRight_eq_div_pow _ _
    have hlow : 2 ^ (k * height) ≤ (c2 + 1) / 2 ^ height := by
      rw [Nat.le_div_iff_mul_le (by omega)]
      calc 2 ^ (k * height) * 2 ^ height = 2 ^ (k * height + height) := by
            rw [pow_add]
      _ = 2 ^ ((k + 1) * height) := by ring_nf
      _ ≤ c2 + 1 := h1
    have hhigh : (c2 + 1) / 2 ^ height < 2 ^ ((k + 1) * height) := by
      rw [Nat.div_lt_iff_lt_mul (by omega)]
      calc c2 + 1 < 2 ^ ((k + 1 + 1) * height) := h2
      _ = 2 ^ ((k + 1) * height + height) := by ring_nf
      _ = 2 ^ ((k + 1) * height) * 2 ^ height := by rw [pow_add]
    have hfuel2 : (c2 + 1) / 2 ^ height ≤ f := by
      have hhalf : (c2 + 1) / 2 ^ height ≤ (c2 + 1) / 2 :=
        Nat.div_le_div_left hpow (by omega)
      omega
    rw [hshift]
    have := ih f ((c2 + 1) / 2 ^ height) (tl + 1) hfuel2 hlow hhigh
    rw [this]
    push_cast
    ring

/-- When treeSize is below one tile, getLevelsForLeafCount is -1. -/
theorem getLevels_neg (height n : Nat) (h : n < 2 ^ height) :
    getLevelsForLeafCount height n = -1 := by
  have hsh : n >>> height = 0 := by
    rw [Nat.shiftRight_eq_div_pow]
    exact Nat.div_eq_of_lt h
  rw [getLevelsForLeafCount, hsh, glflcGo_zero]

/-- When treeSize lies in [2^((k+1)·height), 2^((k+2)·height)),
getLevelsForLeafCount is k. -/
theorem getLevels_pos (height : Nat) (hH : 0 < height) (n k : Nat)
    (h1 : 2 ^ ((k + 1) * height) ≤ n) (h2 : n < 2 ^ ((k + 2) * height)) :
    getLevelsForLeafCount height n = k := by
  have hshift : n >>> height = n / 2 ^ height := Nat.shiftRight_eq_div_pow _ _
  have hlow : 2 ^ (k * height) ≤ n / 2 ^ height := by
    rw [Nat.le_div_iff_mul_le (Nat.pos_pow_of_pos height (by omega))]
    calc 2 ^ (k * height) * 2 ^ height = 2 ^ ((k + 1) * height) := by
          rw [← pow_add]; ring_nf
    _ ≤ n := h1
  have hhigh : n / 2 ^ height < 2 ^ ((k + 1) * height) := by
    rw [Nat.div_lt_iff_lt_mul (Nat.pos_pow_of_pos height (by omega))]
    calc n < 2 ^ ((k + 2) * height) := h2
    _ = 2 ^ ((k + 1) * height) * 2 ^ height := by rw [← pow_add]; ring_nf
  rw [getLevelsForLeafCount, hshift]
  rw [glflcGo_run height hH k (n / 2 ^ height) (n / 2 ^ height) (-1) (le_refl _) hlow hhigh]
  omega

/-- Every treeSize of at least one full tile lies in a unique stratum
band [2^((k+1)·height), 2^((k+2)·height)). -/
theorem exists_stratum (height : Nat) (hH : 0 < height) (n : Nat)
    (h : 2 ^ height ≤ n) :
    ∃ k, 2 ^ ((k + 1) * height) ≤ n ∧ n < 2 ^ ((k + 2) * height) := by
  have hn0 : n ≠ 0 := by
    have h1 : (1 : Nat) ≤ 2 ^ height := Nat.one_le_two_pow
    omega
  have hL1 : 2 ^ Nat.log 2 n ≤ n := Nat.pow_log_le_self 2 hn0
  have hL2 : n < 2 ^ (Nat.log 2 n + 1) := Nat.lt_pow_succ_log_self (by omega) n
  have hhL : height ≤ Nat.log 2 n := by
    have h3 : (2 : Nat) ^ height < 2 ^ (Nat.log 2 n + 1) := lt_of_le_of_lt h hL2
    have h4 : height < Nat.log 2 n + 1 := (Nat.pow_lt_pow_iff_right (by omega)).mp h3
    omega
  obtain ⟨q, hq⟩ : ∃ q, Nat.log 2 n / height = q := ⟨_, rfl⟩
  have hq1 : 1 ≤ q := by
    rw [← hq]
    exact (Nat.one_le_div_iff (by omega)).mpr hhL
  obtain ⟨k, rfl⟩ : ∃ k, q = k + 1 := ⟨q - 1, by omega⟩
  have hmul : (k + 1) * height ≤ Nat.log 2 n := by
    have h5 := Nat.div_mul_le_self (Nat.log 2 n) height
    rw [hq] at h5
    exact h5
  refine ⟨k, ?_, ?_⟩
  · exact le_trans (Nat.pow_le_pow_right (by omega) hmul) hL1
  · have hlt : Nat.log 2 n + 1 ≤ (k + 2) * height := by
      have hdm := Nat.div_add_mod (Nat.log 2 n) height
      have hm := Nat.mod_lt (Nat.log 2 n) hH
      have he : height * (Nat.log 2 n / height) = (k + 1) * height := by
        rw [hq]
        ring
      rw [he] at hdm
      have hrel : (k + 2) * height = (k + 1) * height + height := by ring
      omega
    exact lt_of_lt_of_le hL2 (Nat.pow_le_pow_right (by omega) hlt)

/-- C6: for every tile height ≥ 1 and tree size, getLevelsForLeafCount
returns -1 exactly when treeSize < 2^height, returns k exactly when
2^((k+1)·height) ≤ treeSize < 2^((k+2)·height) (so k is the greatest level
with a full tile), and every stratum above the result has no full tile
(treeSize / 2^((k+1)·height) = 0). -/
theorem getLevelsForLeafCount_spec (height : Nat) (hH : 0 < height) (n : Nat) :
    (getLevelsForLeafCount height n = -1 ↔ n < 2 ^ height) ∧
    (∀ k : Nat, getLevelsForLeafCount height n = k ↔
      (2 ^ ((k + 1) * height) ≤ n ∧ n < 2 ^ ((k + 2) * height))) ∧
    (∀ k : Nat, getLevelsForLeafCount height n < k →
      n / 2 ^ ((k + 1) * height) = 0) := by
  by_cases hn : n < 2 ^ height
  · have hval := getLevels_neg height n hn
    refine ⟨⟨fun _ => hn, fun _ => hval⟩, ?_, ?_⟩
    · intro k
      constructor
      · intro hk
        rw [hval] at hk
        exact absurd hk.symm (by
          intro hc
          have := Int.natCast_nonneg k
          omega)
      · intro ⟨hk1, _⟩
        have hle : 2 ^ height ≤ 2 ^ ((k + 1) * height) :=
          Nat.pow_le_pow_right (by omega) (by nlinarith)
        omega
    · intro k _
      apply Nat.div_eq_of_lt
      have hle : 2 ^ height ≤ 2 ^ ((k + 1) * height) :=
        Nat.pow_le_pow_right (by omega) (by nlinarith)
      omega
  · push_neg at hn
    obtain ⟨k0, hk1, hk2⟩ := exists_stratum height hH n hn
    have hval := getLevels_pos height hH n k0 hk1 hk2
    have huniq : ∀ k : Nat, 2 ^ ((k + 1) * height) ≤ n → n < 2 ^ ((k + 2) * height) → k = k0 := by
      intro k h1 h2
      by_contra hne
      rcases Nat.lt_or_ge k k0 with hlt | hge
      · have hmono : (k + 2) * height ≤ (k0 + 1) * height := by nlinarith
        have := le_trans (Nat.pow_le_pow_right (by omega) hmono) hk1
        omega
      · have hgt : k0 < k := by omega
        have hmono : (k0 + 2) * height ≤ (k + 1) * height := by nlinarith
        have := le_trans (Nat.pow_le_pow_right (by omega) hmono) h1
        omega
    refine ⟨?_, ?_, ?_⟩
    · constructor
      · intro hk
        rw [hval] at hk
        exact absurd hk (by
          intro hc
          have := Int.natCast_nonneg k0
          omega)
      · intro hc
        omega
    · intro k
      constructor
      · intro hk
        rw [hval] at hk
        have : k0 = k := by exact_mod_cast hk
        subst this
        exact ⟨hk1, hk2⟩
      · intro ⟨h1, h2⟩
        rw [hval]
        have := huniq k h1 h2
        subst this
        rfl
    · intro k hk
      rw [hval] at hk
      have hk0k : k0 < k := by exact_mod_cast hk
      apply Nat.div_eq_of_lt
      have hmono : (k0 + 2) * height ≤ (k + 1) * height := by nlinarith
      exact lt_of_lt_of_le hk2 (Nat.pow_le_pow_right (by omega) hmono)

/-- C6 (witness): for H = 8 and treeSize = 300, the stratum count is 0. -/
theorem getLevelsForLeafCount_spec_witness :
    getLevelsForLeafCount 8 300 = 0 :=
  ((getLevelsForLeafCount_spec 8 (by decide) 300).2.1 0).mpr (by norm_num)

/-! ## CloneLeafTiles -/

/-- C4: with Head() = 400 and checkpoint.treeSize = 400 — one more leaf
locally (401) than the checkpoint covers — CloneLeafTiles succeeds with
zero fetches and zero writes instead of failing: the guard compares
treeSize with head instead of head + 1, so the remote-regression case
treeSize = head is not caught. -/
theorem cloneLeafTiles_equalHead_succeeds :
    ∀ (full : Int → Except String (List (List Nat)))
      (writeRes : Int → List (List Nat) → Except String Unit),
      cloneLeafTiles 8 (.ok 400) 400 full writeRes = .ok [] := by
  intro full writeRes
  rfl

/-- C9 (counterexample): when Head() fails, CloneLeafTiles does not fail
with a store fault: it proceeds as if the store were empty and here
returns success. -/
theorem cloneLeafTiles_headError_counterexample :
    cloneLeafTiles 8 (.error ()) 0 (fun _ => .error "network")
      (fun _ _ => .ok ()) = .ok [] := rfl

/-- Writes recorded by a successful clone loop all succeeded. -/
theorem cloneLoop_writes_ok
    (full : Int → Except String (List (List Nat)))
    (writeRes : Int → List (List Nat) → Except String Unit)
    (startOffset tileWidth : Int) :
    ∀ (fuel i : Nat) (acc L : List (Int × List (List Nat))),
      (∀ p ∈ acc, writeRes p.1 p.2 = .ok ()) →
      cloneLoop full writeRes startOffset tileWidth i fuel acc = .ok L →
      ∀ p ∈ L, writeRes p.1 p.2 = .ok () := by
  intro fuel
  induction fuel with
  | zero =>
    intro i acc L hacc hrun p hp
    have : acc.reverse = L := by
      have : Except.ok (ε := String) acc.reverse = .ok L := hrun
      exact Except.ok.inj this
    subst this
    exact hacc p (List.mem_reverse.mp hp)
  | succ fuel ih =>
    intro i acc L hacc hrun p hp
    rw [show cloneLoop full writeRes startOffset tileWidth i (fuel + 1) acc =
        (match full (startOffset + Int.ofNat i) with
          | .error e => .error e
          | .ok leaves =>
            match writeRes ((startOffset + Int.ofNat i) * tileWidth) leaves with
            | .error e => .error ("WriteLeaves: " ++ e)
            | .ok _ => cloneLoop full writeRes startOffset tileWidth (i + 1) fuel
                (((startOffset + Int.ofNat i) * tileWidth, leaves) :: acc)) from rfl]
      at hrun
    rcases hf : full (startOffset + Int.ofNat i) with e | leaves
    · rw [hf] at hrun
      exact absurd hrun (by simp)
    · rw [hf] at hrun
      have hrun2 : (match writeRes ((startOffset + Int.ofNat i) * tileWidth) leaves with
          | .error e => Except.error ("WriteLeaves: " ++ e)
          | .ok _ => cloneLoop full writeRes startOffset tileWidth (i + 1) fuel
              (((startOffset + Int.ofNat i) * tileWidth, leaves) :: acc)) = Except.ok L := hrun
      rcases hw : writeRes ((startOffset + Int.ofNat i) * tileWidth) leaves with e | u
      · rw [hw] at hrun2
        exact absurd hrun2 (by simp)
      · rw [hw] at hrun2
        refine ih (i + 1) (((startOffset + Int.ofNat i) * tileWidth, leaves) :: acc) L ?_ hrun2 p hp
        intro q hq
        rcases List.mem_cons.mp hq with rfl | hq2
        · rw [hw]
        · exact hacc q hq2

/-- C9 (amended): an error from Head() at the start of CloneLeafTiles is
recovered locally — the run proceeds exactly as if the store were empty
(head = -1) — while every write failure remains fatal: a successful run
implies every recorded WriteLeaves call succeeded. -/
theorem cloneLeafTiles_headError_recovered :
    (∀ (height : Nat) (e : Unit) (N : Int)
        (full : Int → Except String (List (List Nat)))
        (writeRes : Int → List (List Nat) → Except String Unit),
      cloneLeafTiles height (.error e) N full writeRes =
        cloneLeafTiles height (.ok (-1)) N full writeRes) ∧
    (∀ (height : Nat) (headRes : Except Unit Int) (N : Int)
        (full : Int → Except String (List (List Nat)))
        (writeRes : Int → List (List Nat) → Except String Unit)
        (L : List (Int × List (List Nat))),
      cloneLeafTiles height headRes N full writeRes = .ok L →
      ∀ p ∈ L, writeRes p.1 p.2 = .ok ()) := by
  constructor
  · intro height e N full writeRes
    rfl
  · intro height headRes N full writeRes L hrun p hp
    simp only [cloneLeafTiles] at hrun
    split at hrun
    · exact absurd hrun (by simp)
    · split at hrun
      · exact cloneLoop_writes_ok full writeRes _ _ _ 0 [] L (by simp) hrun p hp
      · have : ([] : List (Int × List (List Nat))) = L := Except.ok.inj hrun
        subst this
        simp at hp

/-- C9 (witness): a concrete run with a failed Head() equals the
empty-store run, and the writes of a successful concrete run all
succeeded. -/
theorem cloneLeafTiles_headError_recovered_witness :
    cloneLeafTiles 1 (.error ()) 4 fullC wC = cloneLeafTiles 1 (.ok (-1)) 4 fullC wC ∧
      wC 0 [[1], [2]] = .ok () :=
  ⟨cloneLeafTiles_headError_recovered.1 1 () 4 fullC wC,
    cloneLeafTiles_headError_recovered.2 1 (.ok (-1)) 4 fullC wC
      [(0, [[1], [2]]), (2, [[1], [2]])] (by decide) (0, [[1], [2]]) (by decide)⟩

/-! ## ProcessMetadata -/

/-- C7 (counterexample): the leaf body with first line "m v1 h" and
second line "m v1x/go.mod h2" parses successfully although the second
line's version before /go.mod is v1x, not v1: the code compares only the
first len(version) characters, so the claimed iff fails at this leaf. -/
theorem processMetadata_goMod_counterexample :
    processLeafBody ("m v1 h\nm v1x/go.mod h2".data) =
        .ok ⟨"m".data, "v1".data, "h".data, "h2".data⟩ ∧
      specVersionBeforeGoMod ("v1x/go.mod".data) ≠ "v1".data := by
  exact ⟨by decide, by decide⟩

/-- C8 (counterexample): the one-line leaf body "x" does not produce a
parse error: the access lines[1] (after tokens[0..2] of line 1) is an
index out of range, a Go panic, not a surfaced error. -/
theorem processLeaf_oneLine_counterexample :
    processLeafBody ("x".data) = .indexOOB := by decide

/-- Per-leaf characterisation on well-formed bodies: with two lines, three
tokens on each line and a second version token at least as long as the
first version, parsing succeeds exactly when the modules agree and the
first len(version) characters of the second version token equal the
version. -/
theorem processLeaf_iff (body : List Char)
    (h2lines : 2 ≤ (linesOf body).length)
    (h3tok1 : 3 ≤ (tokens1Of body).length)
    (h3tok2 : 3 ≤ (tokens2Of body).length)
    (hvlen : ((tokens1Of body).getD 1 []).length ≤ ((tokens2Of body).getD 1 []).length) :
    (∃ m, processLeafBody body = .ok m) ↔
      ((tokens2Of body).getD 0 [] = (tokens1Of body).getD 0 [] ∧
        ((tokens2Of body).getD 1 []).take ((tokens1Of body).getD 1 []).length
          = (tokens1Of body).getD 1 []) := by
  simp only [tokens1Of, tokens2Of, linesOf] at h2lines h3tok1 h3tok2 hvlen ⊢
  simp only [processLeafBody, linesOf]
  rw [if_neg (by omega)]
  rw [if_neg (by omega)]
  by_cases hm : (splitOnChar ' ' ((splitOnChar '\n' body).getD 1 [])).getD 0 [] =
      (splitOnChar ' ' ((splitOnChar '\n' body).headD [])).getD 0 []
  · rw [if_neg (not_ne_iff.mpr hm)]
    rw [if_neg (by omega)]
    rw [if_neg (by omega)]
    by_cases hv : List.take ((splitOnChar ' ' ((splitOnChar '\n' body).headD [])).getD 1 []).length
        ((splitOnChar ' ' ((splitOnChar '\n' body).getD 1 [])).getD 1 []) =
        (splitOnChar ' ' ((splitOnChar '\n' body).headD [])).getD 1 []
    · rw [if_neg (not_ne_iff.mpr hv)]
      rw [if_neg (by omega)]
      constructor
      · intro _
        exact ⟨hm, hv⟩
      · intro _
        exact ⟨_, rfl⟩
    · rw [if_pos hv]
      constructor
      · intro ⟨m, hc⟩
        exact absurd hc (by simp)
      · intro ⟨_, hc⟩
        exact absurd hc hv
  · rw [if_pos hm]
    constructor
    · intro ⟨m, hc⟩
      exact absurd hc (by simp)
    · intro ⟨hc, _⟩
      exact absurd hc hm

/-- The first mismatching leaf of a tile (all earlier leaves parse) makes
the tile loop return err with that leaf's id. -/
theorem processTileGo_first_bad (off : Nat) :
    ∀ (bodies : List (List Char)) (j i : Nat) (acc : List Metadata),
      j < bodies.length →
      (∀ k, k < j → ∃ m, processLeafBody (bodies.getD k []) = .ok m) →
      (processLeafBody (bodies.getD j []) = .moduleMismatch ∨
        processLeafBody (bodies.getD j []) = .versionMismatch) →
      processTileGo off i bodies acc = .err (off + i + j) := by
  intro bodies
  induction bodies with
  | nil =>
    intro j i acc hj _ _
    simp at hj
  | cons b rest ih =>
    intro j i acc hj hall hbad
    match j with
    | 0 =>
      have hb : (b :: rest).getD 0 [] = b := rfl
      rw [hb] at hbad
      rw [show processTileGo off i (b :: rest) acc =
          (match processLeafBody b with
            | .ok m => processTileGo off (i + 1) rest (m :: acc)
            | .indexOOB => .indexOOB (off + i)
            | _ => .err (off + i)) from rfl]
      rcases hbad with h | h <;> rw [h] <;> rfl
    | j + 1 =>
      obtain ⟨m, hm⟩ := hall 0 (by omega)
      have hb : (b :: rest).getD 0 [] = b := rfl
      rw [hb] at hm
      rw [show processTileGo off i (b :: rest) acc =
          (match processLeafBody b with
            | .ok m => processTileGo off (i + 1) rest (m :: acc)
            | .indexOOB => .indexOOB (off + i)
            | _ => .err (off + i)) from rfl]
      rw [hm]
      have hrec := ih j (i + 1) (m :: acc) (by simp at hj; omega)
        (fun k hk => by
          have := hall (k + 1) (by omega)
          rwa [List.getD_cons_succ] at this)
        (by rwa [List.getD_cons_succ] at hbad)
      rw [show off + i + (j + 1) = off + (i + 1) + j from by omega]
      exact hrec

/-- Every tile recorded as written by ProcessMetadata parsed fully. -/
theorem processMetadataGo_writes (height : Nat)
    (leavesF : Nat → Nat → List (List Char)) :
    ∀ (fuel offset : Nat) (acc : List (Nat × List Metadata)),
      (∀ w ∈ acc, processTile w.1 (leavesF w.1 (2 ^ height)) = .ok w.2) →
      ∀ w ∈ (processMetadataGo height leavesF offset fuel acc).1,
        processTile w.1 (leavesF w.1 (2 ^ height)) = .ok w.2 := by
  intro fuel
  induction fuel with
  | zero =>
    intro offset acc hacc w hw
    exact hacc w (List.mem_reverse.mp hw)
  | succ fuel ih =>
    intro offset acc hacc w hw
    rw [show processMetadataGo height leavesF offset (fuel + 1) acc =
        (match processTile (offset * 2 ^ height) (leavesF (offset * 2 ^ height) (2 ^ height)) with
          | .ok ms => processMetadataGo height leavesF (offset + 1) fuel
              ((offset * 2 ^ height, ms) :: acc)
          | .err id => (acc.reverse, some (.err id))
          | .indexOOB id => (acc.reverse, some (.indexOOB id))) from rfl] at hw
    rcases hres : processTile (offset * 2 ^ height) (leavesF (offset * 2 ^ height) (2 ^ height))
      with ms | id | id
    · rw [hres] at hw
      refine ih (offset + 1) ((offset * 2 ^ height, ms) :: acc) ?_ w hw
      intro q hq
      rcases List.mem_cons.mp hq with rfl | hq2
      · exact hres
      · exact hacc q hq2
    · rw [hres] at hw
      exact hacc w (List.mem_reverse.mp hw)
    · rw [hres] at hw
      exact hacc w (List.mem_reverse.mp hw)

/-- C7 (amended): for a leaf whose body has two lines of three tokens and
a second version token at least as long as the first version, processing
succeeds if and only if the second line's module equals the first line's
module and the first len(version) characters of the second version token
equal the first version — a prefix comparison, not a comparison of the
segment before /go.mod; the first mismatching leaf aborts its tile with an
error carrying that leaf's id, and only fully parsed tiles are ever
written. -/
theorem processMetadata_prefix_rule :
    (∀ body : List Char, 2 ≤ (linesOf body).length → 3 ≤ (tokens1Of body).length →
      3 ≤ (tokens2Of body).length →
      ((tokens1Of body).getD 1 []).length ≤ ((tokens2Of body).getD 1 []).length →
      ((∃ m, processLeafBody body = .ok m) ↔
        ((tokens2Of body).getD 0 [] = (tokens1Of body).getD 0 [] ∧
          ((tokens2Of body).getD 1 []).take ((tokens1Of body).getD 1 []).length
            = (tokens1Of body).getD 1 []))) ∧
    (∀ (off : Nat) (bodies : List (List Char)) (j : Nat), j < bodies.length →
      (∀ k, k < j → ∃ m, processLeafBody (bodies.getD k []) = .ok m) →
      (processLeafBody (bodies.getD j []) = .moduleMismatch ∨
        processLeafBody (bodies.getD j []) = .versionMismatch) →
      processTile off bodies = .err (off + j)) ∧
    (∀ (height N : Nat) (leavesF : Nat → Nat → List (List Char)),
      ∀ w ∈ (processMetadata height N leavesF).1,
        processTile w.1 (leavesF w.1 (2 ^ height)) = .ok w.2) := by
  refine ⟨processLeaf_iff, ?_, ?_⟩
  · intro off bodies j hj hall hbad
    have := processTileGo_first_bad off bodies j 0 [] hj hall hbad
    rw [show off + 0 + j = off + j from by omega] at this
    exact this
  · intro height N leavesF w hw
    exact processMetadataGo_writes height leavesF (N / 2 ^ height) 0 [] (by simp) w hw

/-- C7 (witness): the well-formed leaf "m v1 h" / "m v1/go.mod h2"
satisfies the characterisation's hypotheses and parses successfully. -/
theorem processMetadata_prefix_rule_witness :
    ∃ m, processLeafBody ("m v1 h\nm v1/go.mod h2".data) = .ok m :=
  (processMetadata_prefix_rule.1 ("m v1 h\nm v1/go.mod h2".data)
    (by decide) (by decide) (by decide) (by decide)).mpr (by decide)

/-- C8 (amended): ProcessMetadata is not total on arbitrary leaf bodies —
departures from the two-line three-token schema hit Go index/slice
out-of-range panics instead of surfacing a parse error: any body with
fewer than two lines panics, any body whose first line has fewer than
three tokens panics, and a well-formed first line with a matching module
but a second version token shorter than the first version panics at the
slice tokens[1][:len(version)]. -/
theorem processLeaf_departures_crash :
    (∀ body : List Char, (linesOf body).length < 2 →
      processLeafBody body = .indexOOB) ∧
    (∀ body : List Char, (tokens1Of body).length < 3 →
      processLeafBody body = .indexOOB) ∧
    (∀ body : List Char, 2 ≤ (linesOf body).length → 3 ≤ (tokens1Of body).length →
      (tokens2Of body).getD 0 [] = (tokens1Of body).getD 0 [] →
      2 ≤ (tokens2Of body).length →
      ((tokens2Of body).getD 1 []).length < ((tokens1Of body).getD 1 []).length →
      processLeafBody body = .indexOOB) := by
  refine ⟨?_, ?_, ?_⟩
  · intro body hlines
    simp only [linesOf] at hlines
    simp only [processLeafBody, linesOf]
    by_cases htok : (splitOnChar ' ' ((splitOnChar '\n' body).headD [])).length < 3
    · rw [if_pos htok]
    · rw [if_neg htok, if_pos hlines]
  · intro body htok
    simp only [tokens1Of, linesOf] at htok
    simp only [processLeafBody, linesOf]
    rw [if_pos htok]
  · intro body hlines htok1 hmod htok2 hshort
    simp only [tokens1Of, tokens2Of, linesOf] at hlines htok1 hmod htok2 hshort
    simp only [processLeafBody, linesOf]
    rw [if_neg (by omega), if_neg (by omega), if_neg (not_ne_iff.mpr hmod),
      if_neg (by omega), if_pos hshort]

/-- C8 (witness): the single-line body "x" has one line and panics. -/
theorem processLeaf_departures_crash_witness :
    processLeafBody ("x".data) = LeafResult.indexOOB :=
  processLeaf_departures_crash.1 ("x".data) (by decide)

/-! ## Compact-range stack lemmas -/

/-- Pushing never empties the stack. -/
theorem pushHash_ne_nil (nh : Hash → Hash → Hash) :
    ∀ (st : List (Nat × Hash)) (k : Nat) (h : Hash), pushHash nh st k h ≠ [] := by
  intro st
  induction st with
  | nil =>
    intro k h
    simp [pushHash]
  | cons kh rest ih =>
    intro k h
    obtain ⟨k1, h1⟩ := kh
    rw [pushHash]
    split
    · exact ih (k + 1) (nh h1 h)
    · simp

/-- Pushing a height-k root adds 2^k to the covered width. -/
theorem pushHash_width (nh : Hash → Hash → Hash) :
    ∀ (st : List (Nat × Hash)) (k : Nat) (h : Hash),
      widthSum (pushHash nh st k h) = widthSum st + 2 ^ k := by
  intro st
  induction st with
  | nil =>
    intro k h
    simp [pushHash, widthSum]
  | cons kh rest ih =>
    intro k h
    obtain ⟨k1, h1⟩ := kh
    rw [pushHash]
    split
    · rename_i heq
      subst heq
      rw [ih (k1 + 1) (nh h1 h)]
      simp only [widthSum, List.map_cons, List.sum_cons]
      rw [pow_succ]
      ring
    · simp only [widthSum, List.map_cons, List.sum_cons]
      ring

/-- A lower bound propagates through AscFrom. -/
theorem ascFrom_mono : ∀ (st : List (Nat × Hash)) (a b : Nat),
    a ≤ b → AscFrom b st → AscFrom a st := by
  intro st a b hab hasc
  cases st with
  | nil => trivial
  | cons kh rest =>
    obtain ⟨k, h⟩ := kh
    obtain ⟨h1, h2⟩ := hasc
    exact ⟨by omega, h2⟩

/-- Pushing a root of the bound height preserves ascending stacks. -/
theorem pushHash_asc (nh : Hash → Hash → Hash) :
    ∀ (st : List (Nat × Hash)) (k : Nat) (h : Hash),
      AscFrom k st → AscFrom k (pushHash nh st k h) := by
  intro st
  induction st with
  | nil =>
    intro k h _
    exact ⟨le_refl k, trivial⟩
  | cons kh rest ih =>
    intro k h hasc
    obtain ⟨k1, h1⟩ := kh
    obtain ⟨hk1, hrest⟩ := hasc
    rw [pushHash]
    split
    · rename_i heq
      subst heq
      exact ascFrom_mono _ k1 (k1 + 1) (by omega) (ih (k1 + 1) (nh h1 h) hrest)
    · rename_i hne
      exact ⟨le_refl k, by omega, hrest⟩

/-- Widths of ascending stacks are divisible by 2 to the bound. -/
theorem ascFrom_dvd : ∀ (st : List (Nat × Hash)) (b : Nat),
    AscFrom b st → 2 ^ b ∣ widthSum st := by
  intro st
  induction st with
  | nil =>
    intro b _
    simp [widthSum]
  | cons kh rest ih =>
    intro b hasc
    obtain ⟨k, h⟩ := kh
    obtain ⟨hbk, hrest⟩ := hasc
    have h1 : 2 ^ b ∣ 2 ^ k := pow_dvd_pow 2 hbk
    have h2 : 2 ^ b ∣ widthSum rest :=
      dvd_trans (pow_dvd_pow 2 (by omega)) (ih (k + 1) hrest)
    simp only [widthSum, List.map_cons, List.sum_cons]
    exact Nat.dvd_add h1 h2

/-- An ascending stack whose width is a power of two is a single root. -/
theorem asc_width_pow (st : List (Nat × Hash)) (m : Nat)
    (hasc : AscFrom 0 st) (hw : widthSum st = 2 ^ m) : st.length = 1 := by
  match st with
  | [] =>
    exfalso
    have : (0 : Nat) = 2 ^ m := by simpa [widthSum] using hw
    have := Nat.one_le_two_pow (n := m)
    omega
  | (k, h) :: rest =>
    obtain ⟨_, hrest⟩ := hasc
    have hdvd : 2 ^ (k + 1) ∣ widthSum rest := ascFrom_dvd rest (k + 1) hrest
    match hrest2 : rest with
    | [] => rfl
    | (k2, h2) :: rest2 =>
      exfalso
      have hw2 : 2 ^ k + widthSum ((k2, h2) :: rest2) = 2 ^ m := by
        simpa [widthSum] using hw
      have hpos : 1 ≤ widthSum ((k2, h2) :: rest2) := by
        simp only [widthSum, List.map_cons, List.sum_cons]
        have := Nat.one_le_two_pow (n := k2)
        omega
      obtain ⟨c, hc⟩ := hdvd
      have hcpos : 1 ≤ c := by
        rcases Nat.eq_zero_or_pos c with rfl | hp
        · omega
        · omega
      have hklt : k < m := by
        by_contra hc2
        push_neg at hc2
        have : (2 : Nat) ^ m ≤ 2 ^ k := Nat.pow_le_pow_right (by omega) hc2
        omega
      have hmk : 2 ^ (k + 1) ∣ 2 ^ m := pow_dvd_pow 2 (by omega)
      obtain ⟨d, hd⟩ := hmk
      have h2k : 2 ^ (k + 1) = 2 ^ k * 2 := by rw [pow_succ]
      have hone : 1 ≤ 2 ^ k := Nat.one_le_two_pow
      have hlt : 2 ^ k < 2 ^ (k + 1) := by omega
      have heq : 2 ^ (k + 1) * c + 2 ^ k = 2 ^ (k + 1) * d := by omega
      have hmod1 : (2 ^ (k + 1) * c + 2 ^ k) % 2 ^ (k + 1) = 2 ^ k % 2 ^ (k + 1) :=
        Nat.mul_add_mod _ _ _
      have hmod2 : (2 ^ (k + 1) * d) % 2 ^ (k + 1) = 0 := Nat.mul_mod_right _ _
      rw [heq, hmod2] at hmod1
      rw [Nat.mod_eq_of_lt hlt] at hmod1
      omega

/-- Folding Append over a list of hashes keeps the anchor, advances the
end by the number of hashes, adds them to the width, preserves ascending
stacks and never empties a stack it fills. -/
theorem foldl_crAppend_spec (nh : Hash → Hash → Hash) :
    ∀ (hs : List Hash) (r : CRange),
      (hs.foldl (fun c h => crAppend nh c h) r).rBegin = r.rBegin ∧
      (hs.foldl (fun c h => crAppend nh c h) r).rEnd = r.rEnd + hs.length ∧
      (AscFrom 0 r.stack → AscFrom 0 (hs.foldl (fun c h => crAppend nh c h) r).stack) ∧
      widthSum (hs.foldl (fun c h => crAppend nh c h) r).stack
        = widthSum r.stack + hs.length ∧
      ((r.stack ≠ [] ∨ hs ≠ []) → (hs.foldl (fun c h => crAppend nh c h) r).stack ≠ []) := by
  intro hs
  induction hs with
  | nil =>
    intro r
    refine ⟨rfl, by simp, fun h => h, by simp, ?_⟩
    intro hne
    rcases hne with h | h
    · exact h
    · exact absurd rfl h
  | cons h rest ih =>
    intro r
    have hfold : (h :: rest).foldl (fun c hh => crAppend nh c hh) r
        = rest.foldl (fun c hh => crAppend nh c hh) (crAppend nh r h) := rfl
    obtain ⟨i1, i2, i3, i4, i5⟩ := ih (crAppend nh r h)
    rw [hfold]
    refine ⟨i1, ?_, ?_, ?_, ?_⟩
    · rw [i2]
      simp [crAppend]
      omega
    · intro hasc
      exact i3 (pushHash_asc nh r.stack 0 _ hasc)
    · rw [i4]
      simp only [crAppend]
      rw [pushHash_width]
      simp
      omega
    · intro _
      apply i5
      left
      exact pushHash_ne_nil nh r.stack 0 h

/-- Appending 2^m hashes into an empty range yields a single root. -/
theorem foldl_crAppend_single (nh : Hash → Hash → Hash) (b m : Nat)
    (hs : List Hash) (hlen : hs.length = 2 ^ m) :
    (crHashes (hs.foldl (fun c h => crAppend nh c h) (emptyRange b))).length = 1 := by
  obtain ⟨_, _, h3, h4, _⟩ := foldl_crAppend_spec nh hs (emptyRange b)
  have hasc : AscFrom 0 (hs.foldl (fun c h => crAppend nh c h) (emptyRange b)).stack :=
    h3 trivial
  have hw : widthSum (hs.foldl (fun c h => crAppend nh c h) (emptyRange b)).stack = 2 ^ m := by
    rw [h4, ← hlen]
    simp [emptyRange, widthSum]
  have := asc_width_pow _ m hasc hw
  simp only [crHashes, List.length_map, List.length_reverse]
  exact this

/-- C5: with H = 8 and treeSize = 256 (the single-full-leaf-tile scenario)
and any stored tile T at level 0 offset 0 — corrupted or not — HashTiles
succeeds with no writes and no comparison: the stored hashes are used as
they are and the leaves are never re-hashed, so no HashMismatch citing
(level 0, offset 0, slot j) can occur. -/
theorem hashTiles_ignores_stored_leaf_tiles
    (nh : Hash → Hash → Hash) (lh : List Nat → Hash) (T : List Hash)
    (hT : T.length = 256) (leavesDB : Nat → Nat → List (List Nat)) :
    hashTilesM 8 nh lh (fun l o => if l = 0 ∧ o = 0 then some T else none)
      leavesDB 256 = .ok [] := by
  have hsingle : (crHashes (T.foldl (fun c h => crAppend nh c h) (emptyRange 0))).length = 1 :=
    foldl_crAppend_single nh 0 8 T (by rw [hT]; norm_num)
  have hleaf : hashLeafLevelM 8 nh lh (fun l o => if l = 0 ∧ o = 0 then some T else none)
      leavesDB 0 1 [] [] =
      .ok ([T.foldl (fun c h => crAppend nh c h) (emptyRange 0)], []) := by
    rw [show (hashLeafLevelM 8 nh lh (fun l o => if l = 0 ∧ o = 0 then some T else none)
          leavesDB 0 1 [] [] : Except HTErr (List CRange × List (Nat × Nat × List Hash))) =
        (if (crHashes (T.foldl (fun c h => crAppend nh c h) (emptyRange (0 * 2 ^ 8)))).length = 1
          then hashLeafLevelM 8 nh lh (fun l o => if l = 0 ∧ o = 0 then some T else none)
            leavesDB 1 0 [T.foldl (fun c h => crAppend nh c h) (emptyRange (0 * 2 ^ 8))] []
          else .error .notSingleRoot) from rfl]
    rw [show (0 * 2 ^ 8 : Nat) = 0 from by norm_num]
    rw [if_pos hsingle]
    rfl
  rw [show hashTilesM 8 nh lh (fun l o => if l = 0 ∧ o = 0 then some T else none) leavesDB 256 =
      (match hashLeafLevelM 8 nh lh (fun l o => if l = 0 ∧ o = 0 then some T else none)
          leavesDB 0 (256 / 2 ^ 8) [] [] with
        | .error e => .error e
        | .ok (roots, ws) =>
          match upperLoop 8 nh (fun l o => if l = 0 ∧ o = 0 then some T else none)
              (List.range' 1 (getLevelsForLeafCount 8 256).toNat) (256 / 2 ^ 8) roots ws with
          | .error e => .error e
          | .ok (_, ws2) => .ok ws2) from rfl]
  rw [show (256 / 2 ^ 8 : Nat) = 1 from by norm_num]
  rw [hleaf]
  rfl

/-- C5 (witness): with the stored tile of 256 copies of the hash [7] —
regardless of the underlying leaves — HashTiles returns success with no
writes. -/
theorem hashTiles_ignores_stored_leaf_tiles_witness :
    hashTilesM 8 (fun a b => a ++ b) (fun l => l)
      (fun l o => if l = 0 ∧ o = 0 then some (List.replicate 256 ([7] : Hash)) else none)
      (fun _ _ => []) 256 = .ok [] :=
  hashTiles_ignores_stored_leaf_tiles (fun a b => a ++ b) (fun l => l)
    (List.replicate 256 ([7] : Hash)) (by rw [List.length_replicate]) (fun _ _ => [])

/-! ## CheckRootHash -/

/-- Zero has no set bits, for any fuel. -/
theorem bitIdxAscGo_zero (fuel : Nat) : bitIdxAscGo fuel 0 = [] := by
  cases fuel <;> rfl

/-- A power of two has exactly its exponent as set bit. -/
theorem bitIdxAscGo_pow : ∀ (m fuel : Nat), 2 ^ m ≤ fuel →
    bitIdxAscGo fuel (2 ^ m) = [m] := by
  intro m
  induction m with
  | zero =>
    intro fuel hf
    obtain ⟨f, rfl⟩ : ∃ f, fuel = f + 1 := ⟨fuel - 1, by omega⟩
    show (if 1 % 2 = 1 then [0] else []) ++ (bitIdxAscGo f (1 / 2)).map (· + 1) = [0]
    rw [show (1 : Nat) / 2 = 0 from rfl, bitIdxAscGo_zero]
    rfl
  | succ m ih =>
    intro fuel hf
    have h2 : (2 : Nat) ^ (m + 1) = 2 ^ m * 2 := by rw [pow_succ]
    have h1 : 1 ≤ (2 : Nat) ^ m := Nat.one_le_two_pow
    obtain ⟨f, rfl⟩ : ∃ f, fuel = f + 1 := ⟨fuel - 1, by omega⟩
    obtain ⟨c, hc⟩ : ∃ c, 2 ^ (m + 1) = c + 1 := ⟨2 ^ (m + 1) - 1, by omega⟩
    rw [hc]
    show (if (c + 1) % 2 = 1 then [0] else []) ++ (bitIdxAscGo f ((c + 1) / 2)).map (· + 1)
        = [m + 1]
    have hmod : (c + 1) % 2 = 0 := by omega
    have hdiv : (c + 1) / 2 = 2 ^ m := by omega
    rw [hmod, hdiv]
    rw [ih f (by omega)]
    simp

/-- bitIdxAsc of a power of two is the singleton exponent. -/
theorem bitIdxAsc_pow (m : Nat) : bitIdxAsc (2 ^ m) = [m] :=
  bitIdxAscGo_pow m (2 ^ m) (le_refl _)

/-- NewRange on a width-2^m aligned interval with one root succeeds and
stores the root at height m. -/
theorem newRangeM_single (b m : Nat) (h : Hash) :
    newRangeM b (b + 2 ^ m) [h] = .ok ⟨b, b + 2 ^ m, [(m, h)]⟩ := by
  simp only [newRangeM]
  rw [Nat.add_sub_cancel_left, bitIdxAsc_pow]
  rfl

/-- AppendRange of an adjacent single-root range pushes that root. -/
theorem appendRangeDiscard_single (nh : Hash → Hash → Hash) (r : CRange)
    (b e m : Nat) (h : Hash) (hadj : b = r.rEnd) :
    appendRangeDiscard nh r ⟨b, e, [(m, h)]⟩ =
      ⟨r.rBegin, e, pushHash nh r.stack m h⟩ := by
  simp only [appendRangeDiscard, hadj]
  rw [if_pos trivial]
  rfl

/-- Inner-loop invariant of CheckRootHash at one level: starting aligned
at offset·tileLeafCount, processing fuel tiles succeeds and advances the
range end by fuel whole tiles; the stack never empties once filled. -/
theorem processLevel_ok (height : Nat) (nh : Hash → Hash → Hash)
    (tiles : Nat → Nat → List Hash) (level : Nat)
    (hT : ∀ l o, (tiles l o).length = 2 ^ height) :
    ∀ (fuel offset : Nat) (r : CRange),
      r.rBegin = 0 → r.rEnd = offset * 2 ^ ((level + 1) * height) →
      ∃ r2, processLevel height nh tiles level offset fuel r = .ok r2 ∧
        r2.rBegin = 0 ∧ r2.rEnd = (offset + fuel) * 2 ^ ((level + 1) * height) ∧
        ((r.stack ≠ [] ∨ 0 < fuel) → r2.stack ≠ []) := by
  intro fuel
  induction fuel with
  | zero =>
    intro offset r hb he
    refine ⟨r, rfl, hb, by rw [he]; ring, ?_⟩
    intro hne
    rcases hne with h | h
    · exact h
    · omega
  | succ fuel ih =>
    intro offset r hb he
    have hsingle : (crHashes ((tiles level offset).foldl (fun c h => crAppend nh c h)
        (emptyRange 0))).length = 1 :=
      foldl_crAppend_single nh 0 height (tiles level offset) (hT level offset)
    obtain ⟨h0, hh0⟩ := List.length_eq_one.mp hsingle
    have hnew : newRangeM (offset * 2 ^ ((level + 1) * height))
        ((offset + 1) * 2 ^ ((level + 1) * height))
        (crHashes ((tiles level offset).foldl (fun c h => crAppend nh c h) (emptyRange 0)))
        = .ok ⟨offset * 2 ^ ((level + 1) * height),
            offset * 2 ^ ((level + 1) * height) + 2 ^ ((level + 1) * height),
            [((level + 1) * height, h0)]⟩ := by
      rw [hh0]
      rw [show (offset + 1) * 2 ^ ((level + 1) * height)
          = offset * 2 ^ ((level + 1) * height) + 2 ^ ((level + 1) * height) from by ring]
      exact newRangeM_single (offset * 2 ^ ((level + 1) * height)) ((level + 1) * height) h0
    have happ := appendRangeDiscard_single nh r (offset * 2 ^ ((level + 1) * height))
      (offset * 2 ^ ((level + 1) * height) + 2 ^ ((level + 1) * height))
      ((level + 1) * height) h0 he.symm
    obtain ⟨r2, hrun2, hb2, he2, hne2⟩ := ih (offset + 1)
      ⟨r.rBegin, offset * 2 ^ ((level + 1) * height) + 2 ^ ((level + 1) * height),
        pushHash nh r.stack ((level + 1) * height) h0⟩
      hb (by rw [show (offset + 1) * 2 ^ ((level + 1) * height)
          = offset * 2 ^ ((level + 1) * height) + 2 ^ ((level + 1) * height) from by ring])
    refine ⟨r2, ?_, hb2, ?_, ?_⟩
    · rw [show processLevel height nh tiles level offset (fuel + 1) r =
          (match newRangeM (offset * 2 ^ ((level + 1) * height))
              ((offset + 1) * 2 ^ ((level + 1) * height))
              (crHashes ((tiles level offset).foldl (fun c h => crAppend nh c h)
                (emptyRange 0))) with
            | .error e => .error e
            | .ok treeRange => processLevel height nh tiles level (offset + 1) fuel
                (appendRangeDiscard nh r treeRange)) from rfl]
      rw [hnew]
      show processLevel height nh tiles level (offset + 1) fuel
          (appendRangeDiscard nh r
            ⟨offset * 2 ^ ((level + 1) * height),
              offset * 2 ^ ((level + 1) * height) + 2 ^ ((level + 1) * height),
              [((level + 1) * height, h0)]⟩) = .ok r2
      rw [happ]
      exact hrun2
    · rw [he2]
      ring
    · intro _
      apply hne2
      left
      exact pushHash_ne_nil nh r.stack ((level + 1) * height) h0

/-- One whole level of CheckRootHash: entering aligned and below the tree
size, the level loop extends the range to cover all full tiles of the
level. -/
theorem processLevel_align (height : Nat) (nh : Hash → Hash → Hash)
    (tiles : Nat → Nat → List Hash) (level : Nat) (N : Nat) (r : CRange)
    (hT : ∀ l o, (tiles l o).length = 2 ^ height)
    (hb : r.rBegin = 0)
    (hdvd : 2 ^ ((level + 1) * height) ∣ r.rEnd)
    (hle : r.rEnd ≤ N)
    (hinv : r.rEnd ≠ 0 → r.stack ≠ []) :
    ∃ r2, processLevel height nh tiles level (r.rEnd / 2 ^ ((level + 1) * height))
        (N / 2 ^ ((level + 1) * height) - r.rEnd / 2 ^ ((level + 1) * height)) r = .ok r2 ∧
      r2.rBegin = 0 ∧
      r2.rEnd = N / 2 ^ ((level + 1) * height) * 2 ^ ((level + 1) * height) ∧
      (r2.rEnd ≠ 0 → r2.stack ≠ []) := by
  have hpos : 0 < 2 ^ ((level + 1) * height) := Nat.pos_pow_of_pos _ (by omega)
  have halign : r.rEnd / 2 ^ ((level + 1) * height) * 2 ^ ((level + 1) * height) = r.rEnd :=
    Nat.div_mul_cancel hdvd
  have hmono : r.rEnd / 2 ^ ((level + 1) * height) ≤ N / 2 ^ ((level + 1) * height) :=
    Nat.div_le_div_right hle
  obtain ⟨r2, hrun, hb2, he2, hne2⟩ := processLevel_ok height nh tiles level hT
    (N / 2 ^ ((level + 1) * height) - r.rEnd / 2 ^ ((level + 1) * height))
    (r.rEnd / 2 ^ ((level + 1) * height)) r hb halign.symm
  have hsum : r.rEnd / 2 ^ ((level + 1) * height) +
      (N / 2 ^ ((level + 1) * height) - r.rEnd / 2 ^ ((level + 1) * height)) =
      N / 2 ^ ((level + 1) * height) := by omega
  rw [hsum] at he2
  refine ⟨r2, hrun, hb2, he2, ?_⟩
  intro hend
  by_cases hfuel : 0 < N / 2 ^ ((level + 1) * height) - r.rEnd / 2 ^ ((level + 1) * height)
  · exact hne2 (Or.inr hfuel)
  · have hfe : N / 2 ^ ((level + 1) * height) = r.rEnd / 2 ^ ((level + 1) * height) := by omega
    apply hne2
    left
    apply hinv
    rw [he2, hfe, halign] at hend
    exact hend

/-- The reverse of range (n+1) starts with n. -/
theorem range_reverse_cons (n : Nat) :
    (List.range (n + 1)).reverse = n :: (List.range n).reverse := by
  rw [List.range_succ]
  simp

/-- Level loop of CheckRootHash from stratum top down to 0: entering
aligned to the stratum above top, the range ends covering all full leaf
tiles. -/
theorem processTiles_ok (height : Nat) (nh : Hash → Hash → Hash)
    (tiles : Nat → Nat → List Hash) (N : Nat)
    (hT : ∀ l o, (tiles l o).length = 2 ^ height) :
    ∀ (top : Nat) (r : CRange),
      r.rBegin = 0 →
      r.rEnd = N / 2 ^ ((top + 2) * height) * 2 ^ ((top + 2) * height) →
      (r.rEnd ≠ 0 → r.stack ≠ []) →
      ∃ r2, processTiles height nh tiles N ((List.range (top + 1)).reverse) r = .ok r2 ∧
        r2.rBegin = 0 ∧ r2.rEnd = N / 2 ^ height * 2 ^ height ∧
        (r2.rEnd ≠ 0 → r2.stack ≠ []) := by
  intro top
  induction top with
  | zero =>
    intro r hb he hinv
    have hdvd : 2 ^ ((0 + 1) * height) ∣ r.rEnd := by
      rw [he]
      exact Dvd.dvd.mul_left (pow_dvd_pow 2 (by omega)) _
    have hle : r.rEnd ≤ N := by
      rw [he]
      exact Nat.div_mul_le_self N _
    obtain ⟨r2, hrun, hb2, he2, hne2⟩ :=
      processLevel_align height nh tiles 0 N r hT hb hdvd hle hinv
    refine ⟨r2, ?_, hb2, ?_, hne2⟩
    · rw [show (List.range (0 + 1)).reverse = [0] from rfl]
      rw [show processTiles height nh tiles N [0] r =
          (match processLevel height nh tiles 0 (r.rEnd / 2 ^ ((0 + 1) * height))
              (N / 2 ^ ((0 + 1) * height) - r.rEnd / 2 ^ ((0 + 1) * height)) r with
            | .error e => .error e
            | .ok r3 => processTiles height nh tiles N [] r3) from rfl]
      rw [hrun]
      rfl
    · rw [he2]
      norm_num
  | succ top ih =>
    intro r hb he hinv
    have hdvd : 2 ^ ((top + 1 + 1) * height) ∣ r.rEnd := by
      rw [he]
      exact Dvd.dvd.mul_left (pow_dvd_pow 2 (by nlinarith)) _
    have hle : r.rEnd ≤ N := by
      rw [he]
      exact Nat.div_mul_le_self N _
    obtain ⟨r2, hrun, hb2, he2, hne2⟩ :=
      processLevel_align height nh tiles (top + 1) N r hT hb hdvd hle hinv
    have he2a : r2.rEnd = N / 2 ^ ((top + 2) * height) * 2 ^ ((top + 2) * height) := by
      rw [he2]
    obtain ⟨r3, hrun3, hb3, he3, hne3⟩ := ih r2 hb2 he2a hne2
    refine ⟨r3, ?_, hb3, he3, hne3⟩
    rw [range_reverse_cons]
    rw [show processTiles height nh tiles N ((top + 1) :: (List.range (top + 1)).reverse) r =
        (match processLevel height nh tiles (top + 1) (r.rEnd / 2 ^ ((top + 1 + 1) * height))
            (N / 2 ^ ((top + 1 + 1) * height) - r.rEnd / 2 ^ ((top + 1 + 1) * height)) r with
          | .error e => .error e
          | .ok r4 => processTiles height nh tiles N ((List.range (top + 1)).reverse) r4)
        from rfl]
    rw [hrun]
    exact hrun3
/-- Range computation of CheckRootHash: under the store contract (full
tiles of 2^height hashes) and the remote contract (PartialLeavesAtOffset
returns exactly the requested count), the range always reaches end =
treeSize exactly, with a nonempty root stack whenever the tree is
nonempty. -/
theorem crhRange_spec (height : Nat) (hH : 0 < height)
    (nh : Hash → Hash → Hash) (lh : List Nat → Hash)
    (tiles : Nat → Nat → List Hash) (prt : Nat → Nat → List (List Nat))
    (cp : Checkpoint)
    (hT : ∀ l o, (tiles l o).length = 2 ^ height)
    (hP : ∀ o c, (prt o c).length = c)
    (hN : cp.N < 2 ^ 63) :
    ∃ r, crhRange height nh lh tiles prt cp = .ok r ∧ r.rBegin = 0 ∧ r.rEnd = cp.N ∧
      (cp.N ≠ 0 → r.stack ≠ []) ∧ (cp.N = 0 → r.stack = []) := by
  have h64 : cp.N < 2 ^ 64 := by
    have : (2 : Nat) ^ 63 < 2 ^ 64 := Nat.pow_lt_pow_right (by omega) (by omega)
    omega
  have hfm : ∀ (lst : List (List Nat)) (r0 : CRange),
      lst.foldl (fun rr leaf => crAppend nh rr (lh leaf)) r0
        = (lst.map lh).foldl (fun c h => crAppend nh c h) r0 := by
    intro lst r0
    rw [List.foldl_map]
  have hunfold : crhRange height nh lh tiles prt cp =
      (match processTiles height nh tiles cp.N
          (if getLevelsForLeafCount height cp.N < 0 then []
            else (List.range ((getLevelsForLeafCount height cp.N).toNat + 1)).reverse)
          (emptyRange 0) with
        | .error e => .error e
        | .ok r =>
          .ok ((prt (cp.N / 2 ^ height) ((cp.N + 2 ^ 64 - r.rEnd) % 2 ^ 64)).foldl
            (fun rr leaf => crAppend nh rr (lh leaf)) r)) := rfl
  by_cases hcase : cp.N < 2 ^ height
  · have hK : getLevelsForLeafCount height cp.N = -1 := getLevels_neg height cp.N hcase
    have hlevels : (if getLevelsForLeafCount height cp.N < 0 then []
        else (List.range ((getLevelsForLeafCount height cp.N).toNat + 1)).reverse) =
        ([] : List Nat) := by
      rw [hK]
      norm_num
    have hsc : (cp.N + 2 ^ 64 - (emptyRange 0).rEnd) % 2 ^ 64 = cp.N := by
      show (cp.N + 2 ^ 64 - 0) % 2 ^ 64 = cp.N
      rw [Nat.sub_zero, Nat.add_mod_right]
      exact Nat.mod_eq_of_lt h64
    obtain ⟨f1, f2, f3, f4, f5⟩ := foldl_crAppend_spec nh
      ((prt (cp.N / 2 ^ height) cp.N).map lh) (emptyRange 0)
    have hlen : ((prt (cp.N / 2 ^ height) cp.N).map lh).length = cp.N := by
      rw [List.length_map, hP]
    rw [hunfold, hlevels]
    rw [show processTiles height nh tiles cp.N [] (emptyRange 0) = .ok (emptyRange 0) from rfl]
    rw [show (match (Except.ok (emptyRange 0) : Except CRHErr CRange) with
        | .error e => .error e
        | .ok r =>
          Except.ok ((prt (cp.N / 2 ^ height) ((cp.N + 2 ^ 64 - r.rEnd) % 2 ^ 64)).foldl
            (fun rr leaf => crAppend nh rr (lh leaf)) r)) =
        Except.ok ((prt (cp.N / 2 ^ height) ((cp.N + 2 ^ 64 - (emptyRange 0).rEnd) % 2 ^ 64)).foldl
            (fun rr leaf => crAppend nh rr (lh leaf)) (emptyRange 0)) from rfl]
    rw [hsc, hfm]
    refine ⟨_, rfl, f1, ?_, ?_, ?_⟩
    · rw [f2, hlen]
      show 0 + cp.N = cp.N
      omega
    · intro hne
      apply f5
      right
      intro hnil
      rw [hnil] at hlen
      simp at hlen
      omega
    · intro h0
      have hnil : (prt (cp.N / 2 ^ height) cp.N).map lh = [] := by
        apply List.eq_nil_of_length_eq_zero
        rw [hlen, h0]
      rw [hnil]
      rfl
  · push_neg at hcase
    obtain ⟨k0, hk1, hk2⟩ := exists_stratum height hH cp.N hcase
    have hK : getLevelsForLeafCount height cp.N = k0 :=
      getLevels_pos height hH cp.N k0 hk1 hk2
    have hlevels : (if getLevelsForLeafCount height cp.N < 0 then []
        else (List.range ((getLevelsForLeafCount height cp.N).toNat + 1)).reverse) =
        (List.range (k0 + 1)).reverse := by
      rw [hK]
      rw [if_neg (by omega)]
      norm_num
    have hstart : (emptyRange 0).rEnd =
        cp.N / 2 ^ ((k0 + 2) * height) * 2 ^ ((k0 + 2) * height) := by
      show 0 = cp.N / 2 ^ ((k0 + 2) * height) * 2 ^ ((k0 + 2) * height)
      rw [Nat.div_eq_of_lt hk2]
      ring
    obtain ⟨r2, hrun2, hb2, he2, hne2⟩ := processTiles_ok height nh tiles cp.N hT k0
      (emptyRange 0) rfl hstart (fun hc => absurd rfl hc)
    have hA : cp.N / 2 ^ height * 2 ^ height ≤ cp.N := Nat.div_mul_le_self _ _
    have hre : r2.rEnd ≤ cp.N := by
      rw [he2]
      exact hA
    have hsc : (cp.N + 2 ^ 64 - r2.rEnd) % 2 ^ 64 = cp.N - r2.rEnd := by
      rw [show cp.N + 2 ^ 64 - r2.rEnd = (cp.N - r2.rEnd) + 2 ^ 64 from by omega]
      rw [Nat.add_mod_right]
      exact Nat.mod_eq_of_lt (by omega)
    obtain ⟨f1, f2, f3, f4, f5⟩ := foldl_crAppend_spec nh
      ((prt (cp.N / 2 ^ height) (cp.N - r2.rEnd)).map lh) r2
    have hlen : ((prt (cp.N / 2 ^ height) (cp.N - r2.rEnd)).map lh).length = cp.N - r2.rEnd := by
      rw [List.length_map, hP]
    rw [hunfold, hlevels, hrun2]
    rw [show (match (Except.ok r2 : Except CRHErr CRange) with
        | .error e => .error e
        | .ok r =>
          Except.ok ((prt (cp.N / 2 ^ height) ((cp.N + 2 ^ 64 - r.rEnd) % 2 ^ 64)).foldl
            (fun rr leaf => crAppend nh rr (lh leaf)) r)) =
        Except.ok ((prt (cp.N / 2 ^ height) ((cp.N + 2 ^ 64 - r2.rEnd) % 2 ^ 64)).foldl
            (fun rr leaf => crAppend nh rr (lh leaf)) r2) from rfl]
    rw [hsc, hfm]
    refine ⟨_, rfl, by rw [f1, hb2], ?_, ?_, ?_⟩
    · rw [f2, hlen]
      omega
    · intro _
      by_cases hsc0 : cp.N - r2.rEnd = 0
      · apply f5
        left
        apply hne2
        have h1 : 1 ≤ 2 ^ height := Nat.one_le_two_pow
        omega
      · apply f5
        right
        intro hnil
        rw [hnil] at hlen
        simp at hlen
        omega
    · intro h0
      exfalso
      have h1 : 1 ≤ 2 ^ height := Nat.one_le_two_pow
      omega

/-- C1: under the store contract (every requested tile is present with
2^height hashes) and the remote contract (PartialLeavesAtOffset returns
the requested number of stragglers), CheckRootHash builds one compact
range by visiting strata K down to 0 and appending treeSize − range.end
straggler record hashes fetched at tile offset treeSize / 2^height; the
range's end then equals treeSize exactly, and the call succeeds if and
only if the range's computed root hash equals Checkpoint.rootHash, any
failure on a nonempty tree being precisely the RootMismatch error. -/
theorem checkRootHash_spec (height : Nat) (hH : 0 < height)
    (nh : Hash → Hash → Hash) (lh : List Nat → Hash)
    (tiles : Nat → Nat → List Hash) (prt : Nat → Nat → List (List Nat))
    (cp : Checkpoint)
    (hT : ∀ l o, (tiles l o).length = 2 ^ height)
    (hP : ∀ o c, (prt o c).length = c)
    (hN : cp.N < 2 ^ 63) :
    ∃ r, crhRange height nh lh tiles prt cp = .ok r ∧
      r.rBegin = 0 ∧ r.rEnd = cp.N ∧
      (checkRootHash height nh lh tiles prt cp = .ok () ↔
        getRootHash nh r = some cp.hash) ∧
      (1 ≤ cp.N → checkRootHash height nh lh tiles prt cp = .ok () ∨
        checkRootHash height nh lh tiles prt cp = .error CRHErr.mismatch) := by
  obtain ⟨r, hok, hb, he, hne, h0⟩ :=
    crhRange_spec height hH nh lh tiles prt cp hT hP hN
  have hstep : checkRootHash height nh lh tiles prt cp =
      (if r.rEnd ≠ cp.N then Except.error CRHErr.calcErr
        else match getRootHash nh r with
          | none => Except.error CRHErr.rootFail
          | some root =>
            if root = cp.hash then Except.ok () else Except.error CRHErr.mismatch) := by
    rw [show checkRootHash height nh lh tiles prt cp =
        (match crhRange height nh lh tiles prt cp with
          | .error e => .error e
          | .ok r2 =>
            if r2.rEnd ≠ cp.N then Except.error CRHErr.calcErr
            else match getRootHash nh r2 with
              | none => Except.error CRHErr.rootFail
              | some root =>
                if root = cp.hash then Except.ok () else Except.error CRHErr.mismatch)
        from rfl]
    rw [hok]
  rw [hstep, if_neg (not_ne_iff.mpr he)]
  refine ⟨r, hok, hb, he, ?_, ?_⟩
  · by_cases hN0 : cp.N = 0
    · have hroot : getRootHash nh r = none := by
        simp only [getRootHash]
        rw [if_neg (show ¬ r.rBegin ≠ 0 from not_ne_iff.mpr hb), h0 hN0]
      rw [hroot]
      simp
    · have hsne : r.stack ≠ [] := hne hN0
      obtain ⟨⟨k1, h1⟩, rest, hs⟩ : ∃ a b, r.stack = a :: b := by
        cases hst : r.stack with
        | nil => exact absurd hst hsne
        | cons a b => exact ⟨a, b, rfl⟩
      have hroot : getRootHash nh r =
          some (rest.foldl (fun acc kh => nh kh.2 acc) h1) := by
        simp only [getRootHash]
        rw [if_neg (show ¬ r.rBegin ≠ 0 from not_ne_iff.mpr hb), hs]
      have hmain : (match getRootHash nh r with
          | none => Except.error CRHErr.rootFail
          | some root =>
            if root = cp.hash then Except.ok () else Except.error CRHErr.mismatch)
          = (if rest.foldl (fun acc kh => nh kh.2 acc) h1 = cp.hash
              then Except.ok () else Except.error CRHErr.mismatch) := by
        rw [hroot]
      rw [hmain, hroot]
      by_cases hr : rest.foldl (fun acc kh => nh kh.2 acc) h1 = cp.hash
      · rw [if_pos hr]
        simp [hr]
      · rw [if_neg hr]
        constructor
        · intro hc
          exact absurd hc (by simp)
        · intro hc
          exact absurd (Option.some.inj hc) hr
  · intro hN1
    have hN0 : cp.N ≠ 0 := by omega
    have hsne : r.stack ≠ [] := hne hN0
    obtain ⟨⟨k1, h1⟩, rest, hs⟩ : ∃ a b, r.stack = a :: b := by
      cases hst : r.stack with
      | nil => exact absurd hst hsne
      | cons a b => exact ⟨a, b, rfl⟩
    have hroot : getRootHash nh r =
        some (rest.foldl (fun acc kh => nh kh.2 acc) h1) := by
      simp only [getRootHash]
      rw [if_neg (show ¬ r.rBegin ≠ 0 from not_ne_iff.mpr hb), hs]
    have hmain : (match getRootHash nh r with
        | none => Except.error CRHErr.rootFail
        | some root =>
          if root = cp.hash then Except.ok () else Except.error CRHErr.mismatch)
        = (if rest.foldl (fun acc kh => nh kh.2 acc) h1 = cp.hash
            then Except.ok () else Except.error CRHErr.mismatch) := by
      rw [hroot]
    rw [hmain]
    by_cases hr : rest.foldl (fun acc kh => nh kh.2 acc) h1 = cp.hash
    · left
      rw [if_pos hr]
    · right
      rw [if_neg hr]

/-- C1 (witness): a concrete instantiation with H = 1, treeSize = 3,
constant two-hash tiles and replicated stragglers satisfies the store and
remote contracts, and the theorem applies. -/
theorem checkRootHash_spec_witness :
    (0 < 1) ∧ (∀ l o : Nat, (((fun _ _ => [[1], [2]]) : Nat → Nat → List Hash) l o).length = 2 ^ 1) ∧
      (∀ o c : Nat, (((fun _ c => List.replicate c [7]) : Nat → Nat → List (List Nat)) o c).length = c) ∧
      (3 < 2 ^ 63) ∧
      (∃ r, crhRange 1 (fun a b => a ++ b) (fun l => l) (fun _ _ => [[1], [2]])
          (fun _ c => List.replicate c [7]) ⟨3, [9]⟩ = .ok r ∧
        r.rBegin = 0 ∧ r.rEnd = (3 : Nat) ∧
        (checkRootHash 1 (fun a b => a ++ b) (fun l => l) (fun _ _ => [[1], [2]])
            (fun _ c => List.replicate c [7]) ⟨3, [9]⟩ = .ok () ↔
          getRootHash (fun a b => a ++ b) r = some [9]) ∧
        (1 ≤ (3 : Nat) → checkRootHash 1 (fun a b => a ++ b) (fun l => l) (fun _ _ => [[1], [2]])
            (fun _ c => List.replicate c [7]) ⟨3, [9]⟩ = .ok () ∨
          checkRootHash 1 (fun a b => a ++ b) (fun l => l) (fun _ _ => [[1], [2]])
            (fun _ c => List.replicate c [7]) ⟨3, [9]⟩ = .error CRHErr.mismatch)) :=
  ⟨by decide, fun l o => rfl, fun o c => by rw [List.length_replicate], by norm_num,
    checkRootHash_spec 1 (by decide) (fun a b => a ++ b) (fun l => l)
      (fun _ _ => [[1], [2]]) (fun _ c => List.replicate c [7]) ⟨3, [9]⟩
      (fun l o => rfl) (fun o c => by rw [List.length_replicate]) (by norm_num)⟩
